import Mathlib

/-!
Shallow embedding of the control-flow restructuring program `byteflow2.py`
(numba-rvsdg).  Python classes become inductives, Python dicts become
insertion-ordered association lists with Python's update-in-place /
append-if-new assignment semantics, the global `ControlLabelGenerator`
counter is threaded explicitly, `assert` failures and other raised
exceptions become `Except PyErr` errors, and the unbounded `while` loops
are given explicit fuel.
-/

/-- Python exceptions that the modelled code can raise. -/
inductive PyErr where
  | assertionError
  | nameError
  | keyError
  | stopIterIndex
  | runtimeError
  | fuelOut
deriving DecidableEq, Repr

/-- Label model: `BCLabel` wraps a bytecode offset, `ControlLabel` wraps a
synthetic index minted by the label generator. -/
inductive Label where
  | BCLabel (offset : Int)
  | ControlLabel (index : Nat)
deriving DecidableEq, Repr

/-- Region kind tag; the source uses the strings "loop", "head", "branch",
"tail". -/
inductive RegionKind where
  | loop
  | head
  | branch
  | tail
deriving DecidableEq, Repr

mutual

/-- Graph node: the `basic` constructor is the source's `BasicBlock`
dataclass, the `region` constructor is the `RegionBlock` subclass with its
extra `kind`, `headers`, `subregion`, `exit` fields. -/
inductive BasicBlock where
  | basic (bbegin bend : Label) (fallthrough : Bool)
      (jump_targets backedges : List Label)
  | region (bbegin bend : Label) (fallthrough : Bool)
      (jump_targets backedges : List Label)
      (kind : RegionKind) (headers : Headers)
      (subregion : List (Label × BasicBlock)) (rexit : Option Label)

/-- The dynamically-typed `headers` field of `RegionBlock`: the loop
restructurer stores a dict label → block, the branch restructurer stores a
tuple of labels for head regions and a set of labels for tail regions. -/
inductive Headers where
  | hmap (entries : List (Label × BasicBlock))
  | htuple (labels : List Label)
  | hset (labels : List Label)

end

/-- Insertion-ordered dict of blocks, the `graph` field of `BlockMap`. -/
abbrev BlockMap := List (Label × BasicBlock)

namespace BasicBlock

def bbegin : BasicBlock → Label
  | .basic b _ _ _ _ => b
  | .region b _ _ _ _ _ _ _ _ => b

def bend : BasicBlock → Label
  | .basic _ e _ _ _ => e
  | .region _ e _ _ _ _ _ _ _ => e

def fallthrough : BasicBlock → Bool
  | .basic _ _ f _ _ => f
  | .region _ _ f _ _ _ _ _ _ => f

def jump_targets : BasicBlock → List Label
  | .basic _ _ _ jts _ => jts
  | .region _ _ _ jts _ _ _ _ _ => jts

def backedges : BasicBlock → List Label
  | .basic _ _ _ _ bes => bes
  | .region _ _ _ _ bes _ _ _ _ => bes

/-- Source: `is_exiting` — a block with no jump targets. -/
def is_exiting (b : BasicBlock) : Bool := b.jump_targets.isEmpty

/-- Source: `replace(self, jump_targets=jump_targets)`. -/
def replace_jump_targets : BasicBlock → List Label → BasicBlock
  | .basic b e f _ bes, jts => .basic b e f jts bes
  | .region b e f _ bes k h s x, jts => .region b e f jts bes k h s x

/-- Dataclass `replace` updating both `jump_targets` and `backedges`. -/
def replace_jts_bes : BasicBlock → List Label → List Label → BasicBlock
  | .basic b e f _ _, jts, bes => .basic b e f jts bes
  | .region b e f _ _ k h s x, jts, bes => .region b e f jts bes k h s x

/-- Source: `replace_backedge` — if `loop_head` is a jump target, assert the
block has exactly that one jump target and no backedges, then move it into
`backedges`; otherwise return the block unchanged. -/
def replace_backedge (blk : BasicBlock) (loop_head : Label) :
    Except PyErr BasicBlock :=
  if loop_head ∈ blk.jump_targets then
    if blk.jump_targets.length = 1 ∧ blk.backedges = [] then
      .ok (blk.replace_jts_bes [] [loop_head])
    else .error .assertionError
  else .ok blk

end BasicBlock

/-! Python dict primitives: lookup, assignment (update in place when the
key exists, append otherwise), `pop`, key list. -/

def dictLookup {α : Type} : List (Label × α) → Label → Option α
  | [], _ => none
  | (k, v) :: rest, k0 => if k0 = k then some v else dictLookup rest k0

def dictKeys {α : Type} (g : List (Label × α)) : List Label := g.map Prod.fst

def dictSet {α : Type} (g : List (Label × α)) (k : Label) (v : α) :
    List (Label × α) :=
  if k ∈ dictKeys g then
    g.map (fun p => if p.1 = k then (k, v) else p)
  else g ++ [(k, v)]

def dictPop {α : Type} (g : List (Label × α)) (k : Label) :
    List (Label × α) :=
  g.filter (fun p => decide (p.1 ≠ k))

/-- Source: `BlockMap.add_node` — `self.graph[basicblock.begin] = basicblock`. -/
def add_node (g : BlockMap) (bb : BasicBlock) : BlockMap :=
  dictSet g bb.bbegin bb

theorem dictLookup_eq_head {α : Type} (k : Label) (v : α) (rest) :
    dictLookup ((k, v) :: rest) k = some v := by
  simp [dictLookup]

theorem dictLookup_cons_ne {α : Type} (k k0 : Label) (v : α) (rest)
    (h : k0 ≠ k) : dictLookup ((k, v) :: rest) k0 = dictLookup rest k0 := by
  simp [dictLookup, h]

/-- Python `set.add` on an insertion-ordered duplicate-free list model of a
set: append if absent. -/
def setAdd (l : List Label) (x : Label) : List Label :=
  if x ∈ l then l else l ++ [x]

/-- Source: `[node for node in self.graph if self.graph[node].is_exiting()]`
— the keys of the map whose block is terminating, in key order. -/
def return_nodes (g : BlockMap) : List Label :=
  (dictKeys g).filter (fun k => ((dictLookup g k).map BasicBlock.is_exiting).getD false)

/-- Source: the rewiring step `self.add_node(self.graph.pop(rnode)
.replace_jump_targets(jump_targets=(return_solo_label,)))`. -/
def join_returns_step (solo : Label) (acc : BlockMap) (r : Label) : BlockMap :=
  match dictLookup acc r with
  | some b => add_node (dictPop acc r) (b.replace_jump_targets [solo])
  | none => acc

/-- Source: `BlockMap.join_returns` — when more than one node is terminating,
mint one synthetic terminating node and rewire every terminating node to
jump to it.  The global label counter is threaded explicitly. -/
def join_returns (g : BlockMap) (c : Nat) : BlockMap × Nat :=
  let rets := return_nodes g
  if rets.length > 1 then
    let solo := Label.ControlLabel c
    let soloBlk : BasicBlock := .basic solo (Label.ControlLabel (c + 1)) false [] []
    let g1 := add_node g soloBlk
    let g2 := rets.foldl (join_returns_step solo) g1
    (g2, c + 2)
  else (g, c)

/-! The flow builder: `FlowInfo.from_bytecode` and `build_basicblocks`. -/

/-- Opcode classification used by the source tables `_cond_jump`,
`_uncond_jump`, `_terminating`; `OP` stands for any other opcode. -/
inductive OpName where
  | FOR_ITER
  | POP_JUMP_IF_FALSE
  | POP_JUMP_IF_TRUE
  | JUMP_ABSOLUTE
  | JUMP_FORWARD
  | RETURN_VALUE
  | OP
deriving DecidableEq, Repr

def is_conditional_jump : OpName → Bool
  | .FOR_ITER | .POP_JUMP_IF_FALSE | .POP_JUMP_IF_TRUE => true
  | _ => false

def is_unconditional_jump : OpName → Bool
  | .JUMP_ABSOLUTE | .JUMP_FORWARD => true
  | _ => false

def is_exiting_op : OpName → Bool
  | .RETURN_VALUE => true
  | _ => false

/-- The fields of `dis.Instruction` the source reads: opcode class, offset,
jump-target argument, is-jump-target flag. -/
structure Instruction where
  opname : OpName
  offset : Int
  argval : Int
  is_jump_target : Bool
deriving DecidableEq, Repr

/-- Source: `_next_inst_offset` — asserts the label is a `BCLabel` and adds 2. -/
def next_inst_offset : Label → Except PyErr Label
  | .BCLabel o => .ok (.BCLabel (o + 2))
  | .ControlLabel _ => .error .assertionError

/-- Source: `_prev_inst_offset` — asserts the label is a `BCLabel` and
subtracts 2. -/
def prev_inst_offset : Label → Except PyErr Label
  | .BCLabel o => .ok (.BCLabel (o - 2))
  | .ControlLabel _ => .error .assertionError

/-- Transient per-scan flow-builder state. -/
structure FlowInfo where
  block_offsets : List Label
  jump_insts : List (Label × List Label)
  last_offset : Int
deriving Repr

/-- Source: `FlowInfo._add_jump_inst`. -/
def FlowInfo.add_jump_inst (fi : FlowInfo) (offset : Label)
    (targets : List Label) : FlowInfo :=
  { fi with
    block_offsets := targets.foldl setAdd fi.block_offsets
    jump_insts := dictSet fi.jump_insts offset targets }

/-- Source: `FlowInfo.from_bytecode` — one pass over the instruction stream
recording block boundaries and jump edges; `last_offset` ends as the offset
of the final instruction. -/
def FlowInfo.from_bytecode (bc : List Instruction) : FlowInfo :=
  bc.foldl (fun fi inst =>
    let fi :=
      if inst.offset = 0 ∨ inst.is_jump_target then
        { fi with block_offsets := setAdd fi.block_offsets (.BCLabel inst.offset) }
      else fi
    let fi :=
      if is_conditional_jump inst.opname then
        fi.add_jump_inst (.BCLabel inst.offset)
          [.BCLabel inst.argval, .BCLabel (inst.offset + 2)]
      else if is_unconditional_jump inst.opname then
        fi.add_jump_inst (.BCLabel inst.offset) [.BCLabel inst.argval]
      else if is_exiting_op inst.opname then
        fi.add_jump_inst (.BCLabel inst.offset) []
      else fi
    { fi with last_offset := inst.offset })
    { block_offsets := [], jump_insts := [], last_offset := 0 }

/-- Sort key used by Python's `sorted` over `BCLabel`s (dataclass order on
the wrapped offset). -/
def labelKey : Label → Int
  | .BCLabel o => o
  | .ControlLabel i => (i : Int)

def insertSorted (x : Label) : List Label → List Label
  | [] => [x]
  | y :: ys => if labelKey x ≤ labelKey y then x :: y :: ys
               else y :: insertSorted x ys

def sortLabels (l : List Label) : List Label := l.foldr insertSorted []

/-- Source: `FlowInfo.build_basicblocks` — pair sorted boundaries with their
successors, read each block's terminator from the jump table (explicit
terminator) or fall through to the next boundary. -/
def FlowInfo.build_basicblocks (fi : FlowInfo) : Except PyErr BlockMap := do
  let offsets := sortLabels fi.block_offsets
  let end_offset : Label := .BCLabel (fi.last_offset + 2)
  let pairs := offsets.zip (offsets.drop 1 ++ [end_offset])
  pairs.foldlM (fun g be => do
    let term_offset ← prev_inst_offset be.2
    match dictLookup fi.jump_insts term_offset with
    | none => pure (add_node g (.basic be.1 be.2 true [be.2] []))
    | some tgts => pure (add_node g (.basic be.1 be.2 false tgts []))) []

/-! Strongly-connected components.  The source calls an external module
(`from scc import scc`) that is not part of this repository. -/

/-- Successors of a node restricted to labels present in the map (the
`GraphWrap.__getitem__` restriction in `compute_scc`). -/
def successorsIn (g : BlockMap) (k : Label) : List Label :=
  match dictLookup g k with
  | some b => b.jump_targets.filter (fun t => t ∈ dictKeys g)
  | none => []

def reachStep (g : BlockMap) (cur : List Label) : List Label :=
  cur.foldl (fun acc k => (successorsIn g k).foldl setAdd acc) cur

/-- Successor expansion iterated `n` times from a singleton seed. -/
def reachIter (g : BlockMap) : Nat → Label → List Label
  | 0, k => [k]
  | n + 1, k => reachStep g (reachIter g n k)

/-- Labels reachable from `k` (reflexively) inside the map, computed by
saturating successor expansion `|keys|` times. -/
def reachSet (g : BlockMap) (k : Label) : List Label :=
  reachIter g (dictKeys g).length k

def reach (g : BlockMap) (a b : Label) : Bool := b ∈ reachSet g a

/-- Modelled from the spec: the external `scc` module (imported by
`BlockMap.compute_scc`, not part of this repository) returns the list of
strongly-connected node-sets over the jump-target edge relation restricted
to labels present in the map.  Here an SCC is the mutual-reachability class
of a node, and classes are listed in first-encounter key order. -/
def sccOf (g : BlockMap) (k : Label) : List Label :=
  (dictKeys g).filter (fun m => reach g k m && reach g m k)

/-- Modelled from the spec: `BlockMap.compute_scc` — the list of SCCs of the
map. -/
def compute_scc (g : BlockMap) : List (List Label) :=
  (dictKeys g).foldl (fun acc k =>
    if acc.any (fun s => k ∈ s) then acc else acc ++ [sccOf g k]) []

/-- Source: `BlockMap.exclude_nodes` — keys of the map not in the given set. -/
def exclude_nodes (g : BlockMap) (excl : List Label) : List Label :=
  (dictKeys g).filter (fun k => k ∉ excl)

/-- Jump targets of a node of the map (`[]` for an absent key, matching
the `defaultdict`-style uses). -/
def targetsOf (g : BlockMap) (node : Label) : List Label :=
  match dictLookup g node with
  | some b => b.jump_targets
  | none => []

/-- One node's contribution in `find_headers_and_entries`. -/
def fhe_step (g : BlockMap) (loop : List Label)
    (he : List Label × List Label) (node : Label) : List Label × List Label :=
  let jumpIn := (targetsOf g node).filter (fun t => t ∈ loop)
  let headers := jumpIn.foldl setAdd he.1
  if jumpIn.isEmpty then (headers, he.2) else (headers, setAdd he.2 node)

/-- Source: `BlockMap.find_headers_and_entries` — headers are loop members
jumped to from outside the loop, entries are the outside nodes supplying
such a jump. -/
def find_headers_and_entries (g : BlockMap) (loop : List Label) :
    List Label × List Label :=
  (exclude_nodes g loop).foldl (fhe_step g loop) ([], [])

/-- One jump target's contribution in `find_exits`. -/
def fe_inner (loop : List Label) (inside : Label)
    (st : List Label × List Label) (jt : Label) : List Label × List Label :=
  if jt ∈ loop then st else (setAdd st.1 inside, setAdd st.2 jt)

/-- One loop member's contribution in `find_exits`. -/
def fe_step (loop : List Label) (g : BlockMap)
    (pe : List Label × List Label) (inside : Label) : List Label × List Label :=
  match dictLookup g inside with
  | none => pe
  | some b =>
    let st := b.jump_targets.foldl (fe_inner loop inside) pe
    if b.is_exiting then (setAdd st.1 inside, st.2) else st

/-- Source: `find_exits` — pre-exits are loop members with an edge leaving
the loop or that are terminating; post-exits are the outside targets of
such edges.  Membership lookups that would raise `KeyError` in Python are
unreachable at every call site and skip the node here. -/
def find_exits (loop : List Label) (g : BlockMap) : List Label × List Label :=
  loop.foldl (fe_step loop g) ([], [])

/-- One rewiring step of `join_exits`: reroute `loop_node`'s edge to
`exit_node` (when present) through the synthetic pre-exit. -/
def je_rewire (pre exit_node : Label) (gacc2 : BlockMap)
    (loop_node : Label) : BlockMap :=
  if loop_node = pre then gacc2
  else
    match dictLookup gacc2 loop_node with
    | none => gacc2
    | some b =>
      if exit_node ∈ b.jump_targets then
        add_node (dictPop gacc2 loop_node)
          (b.replace_jump_targets
            ((b.jump_targets.filter (fun t => t ≠ exit_node)) ++ [pre]))
      else gacc2

/-- Source: `join_exits` — synthesize a pre-exit/post-exit pair, add the
pre-exit to the loop, fan all loop-to-exit edges through the pre-exit, have
the post-exit fan out to the original exits.  Returns the updated loop set,
graph, the two labels, and the advanced counter. -/
def join_exits (loop : List Label) (g : BlockMap) (exits : List Label)
    (c : Nat) : List Label × BlockMap × Label × Label × Nat :=
  let pre_exit_label := Label.ControlLabel c
  let post_exit_label := Label.ControlLabel (c + 1)
  let loop1 := setAdd loop pre_exit_label
  let post_exit_block : BasicBlock :=
    .basic post_exit_label (.ControlLabel (c + 2)) false exits []
  let pre_exit_block : BasicBlock :=
    .basic pre_exit_label (.ControlLabel (c + 3)) false [post_exit_label] []
  let g1 := add_node (add_node g pre_exit_block) post_exit_block
  let g2 := exits.foldl (fun gacc exit_node =>
    loop1.foldl (je_rewire pre_exit_label exit_node) gacc) g1
  (loop1, g2, pre_exit_label, post_exit_label, c + 4)

/-- Source: `join_pre_exits` — synthesize one pre-exit feeding the shared
post-exit and reroute every exit node through it. -/
def join_pre_exits (exits : List Label) (post_exit : Label)
    (inner_nodes : List Label) (g : BlockMap) (c : Nat) :
    List Label × BlockMap × Label × Nat :=
  let pre_exit_label := Label.ControlLabel c
  let pre_exit_block : BasicBlock :=
    .basic pre_exit_label (.ControlLabel (c + 1)) false [post_exit] []
  let g1 := add_node g pre_exit_block
  let inner1 := setAdd inner_nodes pre_exit_label
  let g2 := exits.foldl (fun gacc exit_node =>
    match dictLookup gacc exit_node with
    | none => gacc
    | some b =>
      add_node (dictPop gacc exit_node)
        (b.replace_jump_targets [pre_exit_label])) g1
  (inner1, g2, pre_exit_label, c + 2)

/-- Source: `join_headers` — synthesize one entry node fanning out to all
headers and rewire every entry to jump to it; asserts more than one header. -/
def join_headers (headers entries : List Label) (g : BlockMap) (c : Nat) :
    Except PyErr (Label × BlockMap × Nat) :=
  if headers.length > 1 then
    let synth_entry_label := Label.ControlLabel c
    let synth_entry_block : BasicBlock :=
      .basic synth_entry_label (.ControlLabel (c + 1)) false headers []
    let g1 := add_node g synth_entry_block
    let g2 := entries.foldl (fun gacc block =>
      match dictLookup gacc block with
      | none => gacc
      | some b =>
        add_node (dictPop gacc block)
          (b.replace_jump_targets [synth_entry_label])) g1
    .ok (synth_entry_label, g2, c + 2)
  else .error .assertionError

/-- State threaded through `restructure_loop`'s per-loop iteration: the
graph, the label counter, and the last-assigned exit-label pair (the Python
locals `pre_exit_label` / `post_exit_label`, which survive across loop
iterations). -/
structure LoopState where
  graph : BlockMap
  counter : Nat
  lastExit : Option (Label × Label)

/-- Source: the per-loop body of `restructure_loop` (the `for loop in
loops` loop), parameterized by the recursive call applied to the new
subregion.  In the `len(post_exits) == 1 and len(pre_exits) != 1` case the
source constructs `Exception("unreachable?")` without raising it and falls
through to the next use of `pre_exit_label`, which raises `NameError` when
the locals were never assigned and otherwise silently reuses the stale
pair — modelled by `st.lastExit`. -/
def process_loops (rec : BlockMap → Nat → Except PyErr (BlockMap × Nat)) :
    List (List Label) → LoopState → Except PyErr LoopState
  | [], st => .ok st
  | loop :: rest, st => do
    let headers := (find_headers_and_entries st.graph loop).1
    let pe := find_exits loop st.graph
    let sel ←
      if pe.2.length ≠ 1 then
        pure (join_exits loop st.graph pe.2 st.counter)
      else if pe.1.length ≠ 1 then
        match st.lastExit with
        | none => (.error .nameError :
            Except PyErr (List Label × BlockMap × Label × Label × Nat))
        | some pp => pure (loop, st.graph, pp.1, pp.2, st.counter)
      else
        match pe.1, pe.2 with
        | preE :: _, postE :: _ => pure (loop, st.graph, preE, postE, st.counter)
        | _, _ => .error .stopIterIndex
    let (loop1, g1, pre, post, c1) := sel
    let insiders := loop1.filterMap (fun k => dictLookup g1 k)
    if insiders.length ≠ loop1.length then .error .keyError else
    let g2 := loop1.foldl dictPop g1
    match headers with
    | [loop_head] => do
      let loop_body ← insiders.foldlM (fun acc node =>
          if node.bbegin ∈ headers then pure acc
          else do
            let nb ← node.replace_backedge loop_head
            pure (dictSet acc node.bbegin nb)) ([] : BlockMap)
      let hdrs := insiders.filterMap (fun node =>
          if node.bbegin ∈ headers then some (node.bbegin, node) else none)
      let rend ← next_inst_offset loop_head
      let sc ← rec loop_body c1
      let blk : BasicBlock := .region loop_head rend false [post] []
          .loop (.hmap hdrs) sc.1 (some pre)
      process_loops rec rest ⟨dictSet g2 loop_head blk, sc.2, some (pre, post)⟩
    | _ => .error .assertionError

/-- Source: `restructure_loop` — extract each SCC of size at least 2 into a
region of kind `loop`, recursing into the new subregion before inserting
the region under the header's label.  The structural recursion is driven by
explicit fuel; every use supplies sufficient fuel. -/
def restructure_loop (fuel : Nat) :
    BlockMap → Nat → Except PyErr (BlockMap × Nat) :=
  Nat.rec (motive := fun _ => BlockMap → Nat → Except PyErr (BlockMap × Nat))
    (fun _ _ => .error .fuelOut)
    (fun _ ih g c =>
      let loops := (compute_scc g).filter (fun s => s.length > 1)
      (process_loops ih loops ⟨g, c, none⟩).map (fun st => (st.graph, st.counter)))
    fuel

theorem restructure_loop_zero (g : BlockMap) (c : Nat) :
    restructure_loop 0 g c = .error .fuelOut := rfl

theorem restructure_loop_succ (f : Nat) (g : BlockMap) (c : Nat) :
    restructure_loop (f + 1) g c =
      (process_loops (restructure_loop f)
        ((compute_scc g).filter (fun s => s.length > 1))
        ⟨g, c, none⟩).map (fun st => (st.graph, st.counter)) := rfl

/-- Canonical fuel for a call of `restructure_loop` on a given map. -/
def restructure_loopTop (g : BlockMap) (c : Nat) :
    Except PyErr (BlockMap × Nat) :=
  restructure_loop (g.length + 2) g c

/-! Concrete instruction streams of the spec's Scenario A and Scenario B. -/

def scenarioA : List Instruction := [
  ⟨.OP, 0, 0, false⟩,
  ⟨.POP_JUMP_IF_TRUE, 2, 14, false⟩,
  ⟨.OP, 4, 0, false⟩,
  ⟨.POP_JUMP_IF_TRUE, 6, 12, false⟩,
  ⟨.OP, 8, 0, false⟩,
  ⟨.JUMP_ABSOLUTE, 10, 18, false⟩,
  ⟨.OP, 12, 0, false⟩,
  ⟨.OP, 14, 4, false⟩,
  ⟨.JUMP_ABSOLUTE, 16, 18, false⟩,
  ⟨.RETURN_VALUE, 18, 0, false⟩ ]

/-- Scenario B: Scenario A with the `JUMP_ABSOLUTE` at offset 16 retargeted
to offset 4. -/
def scenarioB : List Instruction := [
  ⟨.OP, 0, 0, false⟩,
  ⟨.POP_JUMP_IF_TRUE, 2, 14, false⟩,
  ⟨.OP, 4, 0, false⟩,
  ⟨.POP_JUMP_IF_TRUE, 6, 12, false⟩,
  ⟨.OP, 8, 0, false⟩,
  ⟨.JUMP_ABSOLUTE, 10, 18, false⟩,
  ⟨.OP, 12, 0, false⟩,
  ⟨.OP, 14, 4, false⟩,
  ⟨.JUMP_ABSOLUTE, 16, 4, false⟩,
  ⟨.RETURN_VALUE, 18, 0, false⟩ ]

def scenarioAMap : BlockMap :=
  ((FlowInfo.from_bytecode scenarioA).build_basicblocks).toOption.getD []

def scenarioBMap : BlockMap :=
  ((FlowInfo.from_bytecode scenarioB).build_basicblocks).toOption.getD []

/-! Association-list lemmas for the Python-dict model. -/

theorem dictKeys_nil {α : Type} : dictKeys ([] : List (Label × α)) = [] := rfl

theorem dictKeys_cons {α : Type} (p : Label × α) (rest) :
    dictKeys (p :: rest) = p.1 :: dictKeys rest := rfl

theorem dictKeys_append {α : Type} (g1 g2 : List (Label × α)) :
    dictKeys (g1 ++ g2) = dictKeys g1 ++ dictKeys g2 := by
  simp [dictKeys]

theorem dictLookup_eq_none_iff {α : Type} (g : List (Label × α)) (k : Label) :
    dictLookup g k = none ↔ k ∉ dictKeys g := by
  induction g with
  | nil => simp [dictLookup, dictKeys]
  | cons p rest ih =>
    obtain ⟨a, v⟩ := p
    by_cases h : k = a
    · subst h; simp [dictLookup, dictKeys]
    · simp [dictLookup, dictKeys, h, ih]

theorem dictLookup_isSome_of_mem {α : Type} (g : List (Label × α)) (k : Label)
    (h : k ∈ dictKeys g) : ∃ v, dictLookup g k = some v := by
  cases hv : dictLookup g k with
  | none => exact absurd ((dictLookup_eq_none_iff g k).mp hv) (by simp [h])
  | some v => exact ⟨v, rfl⟩

theorem dictLookup_mem {α : Type} (g : List (Label × α)) (k : Label) (v : α)
    (h : dictLookup g k = some v) : (k, v) ∈ g := by
  induction g with
  | nil => simp [dictLookup] at h
  | cons p rest ih =>
    obtain ⟨a, w⟩ := p
    by_cases hk : k = a
    · subst hk
      simp [dictLookup] at h
      simp [h]
    · rw [show dictLookup ((a, w) :: rest) k = dictLookup rest k by
        simp [dictLookup, hk]] at h
      exact List.mem_cons_of_mem _ (ih h)

theorem dictLookup_append_left {α : Type} (g1 g2 : List (Label × α))
    (k : Label) (v : α) (h : dictLookup g1 k = some v) :
    dictLookup (g1 ++ g2) k = some v := by
  induction g1 with
  | nil => simp [dictLookup] at h
  | cons p rest ih =>
    obtain ⟨a, w⟩ := p
    by_cases hk : k = a
    · subst hk; simp [dictLookup] at h ⊢; exact h
    · simp [dictLookup, hk] at h ⊢; exact ih h

theorem dictLookup_append_right {α : Type} (g1 g2 : List (Label × α))
    (k : Label) (h : dictLookup g1 k = none) :
    dictLookup (g1 ++ g2) k = dictLookup g2 k := by
  induction g1 with
  | nil => simp
  | cons p rest ih =>
    obtain ⟨a, w⟩ := p
    by_cases hk : k = a
    · subst hk; simp [dictLookup] at h
    · simp [dictLookup, hk] at h ⊢; exact ih h

theorem dictKeys_dictPop {α : Type} (g : List (Label × α)) (k : Label) :
    dictKeys (dictPop g k) = (dictKeys g).filter (fun x => x ≠ k) := by
  induction g with
  | nil => rfl
  | cons p rest ih =>
    obtain ⟨a, w⟩ := p
    by_cases hk : a = k
    · subst hk; simp [dictPop, dictKeys, List.filter] at ih ⊢; exact ih
    · simp [dictPop, dictKeys, List.filter, hk] at ih ⊢; exact ih

theorem dictPop_cons {α : Type} (a : Label) (w : α) (rest : List (Label × α))
    (k : Label) :
    dictPop ((a, w) :: rest) k =
      if a = k then dictPop rest k else (a, w) :: dictPop rest k := by
  by_cases h : a = k <;> simp [dictPop, List.filter_cons, h]

theorem dictLookup_dictPop_ne {α : Type} (g : List (Label × α)) (k q : Label)
    (h : q ≠ k) : dictLookup (dictPop g k) q = dictLookup g q := by
  induction g with
  | nil => rfl
  | cons p rest ih =>
    obtain ⟨a, w⟩ := p
    rw [dictPop_cons]
    by_cases ha : a = k
    · subst ha
      rw [if_pos rfl, ih, dictLookup_cons_ne _ _ _ _ h]
    · rw [if_neg ha]
      by_cases hq : q = a
      · subst hq; rw [dictLookup_eq_head, dictLookup_eq_head]
      · rw [dictLookup_cons_ne _ _ _ _ hq, dictLookup_cons_ne _ _ _ _ hq, ih]

theorem dictLookup_dictPop_self {α : Type} (g : List (Label × α)) (k : Label) :
    dictLookup (dictPop g k) k = none := by
  rw [dictLookup_eq_none_iff, dictKeys_dictPop]
  simp

theorem dictSet_of_not_mem {α : Type} (g : List (Label × α)) (k : Label)
    (v : α) (h : k ∉ dictKeys g) : dictSet g k v = g ++ [(k, v)] := by
  simp [dictSet, h]

theorem replace_jump_targets_bbegin (b : BasicBlock) (jts : List Label) :
    (b.replace_jump_targets jts).bbegin = b.bbegin := by
  cases b <;> rfl

theorem replace_jump_targets_is_exiting_false (b : BasicBlock) (t : Label)
    (ts : List Label) : (b.replace_jump_targets (t :: ts)).is_exiting = false := by
  cases b <;> rfl

theorem replace_jump_targets_jump_targets (b : BasicBlock) (jts : List Label) :
    (b.replace_jump_targets jts).jump_targets = jts := by
  cases b <;> rfl

/-- Behaviour of the `join_returns` rewiring fold: unprocessed keys keep
their lookups, each processed key ends mapped to its old block with the
jump targets replaced by the synthetic label, and keys are reordered with
the processed keys moved to the back. -/
theorem join_fold_spec (solo : Label) (rs : List Label) :
    ∀ (acc : BlockMap),
    (dictKeys acc).Nodup →
    (∀ p ∈ acc, (p.2).bbegin = p.1) →
    rs.Nodup →
    (∀ r ∈ rs, r ∈ dictKeys acc) →
    (∀ q, q ∉ rs →
      dictLookup (rs.foldl (join_returns_step solo) acc) q = dictLookup acc q) ∧
    (∀ r ∈ rs, ∃ b, dictLookup acc r = some b ∧
        dictLookup (rs.foldl (join_returns_step solo) acc) r =
          some (b.replace_jump_targets [solo])) ∧
    dictKeys (rs.foldl (join_returns_step solo) acc) =
      (dictKeys acc).filter (fun x => x ∉ rs) ++ rs ∧
    (dictKeys (rs.foldl (join_returns_step solo) acc)).Nodup ∧
    (∀ p ∈ rs.foldl (join_returns_step solo) acc, (p.2).bbegin = p.1) := by
  induction rs with
  | nil =>
    intro acc hnd hwf _ _
    refine ⟨fun q _ => rfl, by simp, by simp, hnd, hwf⟩
  | cons r rest ih =>
    intro acc hnd hwf hrs hmem
    obtain ⟨hr_rest, hrest_nd⟩ := List.nodup_cons.mp hrs
    obtain ⟨b, hb⟩ := dictLookup_isSome_of_mem acc r (hmem r (by simp))
    have hbr : b.bbegin = r := hwf (r, b) (dictLookup_mem acc r b hb)
    have hstep : join_returns_step solo acc r =
        dictPop acc r ++ [(r, b.replace_jump_targets [solo])] := by
      rw [join_returns_step, hb]
      show add_node (dictPop acc r) _ = _
      rw [add_node, replace_jump_targets_bbegin, hbr, dictSet_of_not_mem]
      rw [dictKeys_dictPop]
      simp
    have hfold : (r :: rest).foldl (join_returns_step solo) acc =
        rest.foldl (join_returns_step solo)
          (dictPop acc r ++ [(r, b.replace_jump_targets [solo])]) := by
      rw [List.foldl_cons, hstep]
    set acc1 : BlockMap := dictPop acc r ++ [(r, b.replace_jump_targets [solo])]
      with hacc1
    have hkeys1 : dictKeys acc1 =
        (dictKeys acc).filter (fun x => x ≠ r) ++ [r] := by
      rw [hacc1, dictKeys_append, dictKeys_dictPop]; rfl
    have hnd1 : (dictKeys acc1).Nodup := by
      rw [hkeys1]
      refine List.Nodup.append (hnd.filter _) (List.nodup_singleton r) ?_
      intro x hx hx2
      simp only [List.mem_singleton] at hx2
      subst hx2
      have := List.of_mem_filter hx
      simp at this
    have hwf1 : ∀ p ∈ acc1, (p.2).bbegin = p.1 := by
      intro p hp
      rw [hacc1] at hp
      rcases List.mem_append.mp hp with hp | hp
      · exact hwf p (List.mem_of_mem_filter hp)
      · simp only [List.mem_singleton] at hp
        subst hp
        simp [replace_jump_targets_bbegin, hbr]
    have hlook1_ne : ∀ q, q ≠ r → dictLookup acc1 q = dictLookup acc q := by
      intro q hq
      rw [hacc1]
      cases hlp : dictLookup (dictPop acc r) q with
      | some v =>
        rw [dictLookup_append_left _ _ _ _ hlp]
        rw [dictLookup_dictPop_ne _ _ _ hq] at hlp
        exact hlp.symm
      | none =>
        rw [dictLookup_append_right _ _ _ hlp]
        rw [dictLookup_dictPop_ne _ _ _ hq] at hlp
        rw [hlp, dictLookup_cons_ne _ _ _ _ hq]
        rfl
    have hlook1_r : dictLookup acc1 r = some (b.replace_jump_targets [solo]) := by
      rw [hacc1, dictLookup_append_right _ _ _ (dictLookup_dictPop_self acc r),
        dictLookup_eq_head]
    have hmem1 : ∀ x ∈ rest, x ∈ dictKeys acc1 := by
      intro x hx
      have hxr : x ≠ r := fun hxe => hr_rest (hxe ▸ hx)
      rw [hkeys1]
      refine List.mem_append.mpr (Or.inl ?_)
      exact List.mem_filter.mpr ⟨hmem x (List.mem_cons_of_mem _ hx), by simp [hxr]⟩
    obtain ⟨IH1, IH2, IH3, IH4, IH5⟩ := ih acc1 hnd1 hwf1 hrest_nd hmem1
    rw [hfold]
    refine ⟨?_, ?_, ?_, IH4, IH5⟩
    · intro q hq
      have hq_rest : q ∉ rest := fun hc => hq (List.mem_cons_of_mem _ hc)
      have hq_r : q ≠ r := fun hc => hq (hc ▸ List.mem_cons_self _ _)
      rw [IH1 q hq_rest, hlook1_ne q hq_r]
    · intro x hx
      rcases List.mem_cons.mp hx with hx | hx
      · subst hx
        exact ⟨b, hb, by rw [IH1 x hr_rest, hlook1_r]⟩
      · obtain ⟨b2, hb2, hb2res⟩ := IH2 x hx
        have hxr : x ≠ r := fun hxe => hr_rest (hxe ▸ hx)
        exact ⟨b2, by rw [← hlook1_ne x hxr]; exact hb2, hb2res⟩
    · rw [IH3, hkeys1, List.filter_append, List.filter_filter]
      have hfe : (dictKeys acc).filter
            (fun a => decide (a ∉ rest) && decide (a ≠ r)) =
          (dictKeys acc).filter (fun x => x ∉ r :: rest) := by
        refine List.filter_congr ?_
        intro x _
        by_cases h1 : x = r <;> by_cases h2 : x ∈ rest <;> simp [h1, h2]
      rw [hfe]
      have hre : [r].filter (fun x : Label => x ∉ rest) = [r] := by
        simp [hr_rest]
      rw [hre, List.append_assoc]
      rfl

/-- Characterization of `join_returns` on a well-formed map with more than
one terminating node: the new synthetic node is the unique terminating node
afterwards, every formerly terminating node now jumps exactly to it, and
the counter advances by two. -/
theorem join_returns_spec (g : BlockMap) (c : Nat)
    (hnd : (dictKeys g).Nodup)
    (hwf : ∀ p ∈ g, (p.2).bbegin = p.1)
    (hfresh : ∀ i : Nat, Label.ControlLabel i ∈ dictKeys g → i < c)
    (hk : 1 < (return_nodes g).length) :
    return_nodes (join_returns g c).1 = [Label.ControlLabel c] ∧
    (∀ r ∈ return_nodes g, ∃ b, dictLookup g r = some b ∧
      dictLookup (join_returns g c).1 r =
        some (b.replace_jump_targets [Label.ControlLabel c])) ∧
    (join_returns g c).2 = c + 2 := by
  set solo : Label := Label.ControlLabel c with hsolo
  set soloBlk : BasicBlock :=
    .basic solo (Label.ControlLabel (c + 1)) false [] [] with hsoloBlk
  have hsolo_not : solo ∉ dictKeys g := by
    intro h
    exact absurd (hfresh c h) (lt_irrefl c)
  set rets := return_nodes g with hrets
  have hrets_sub : ∀ r ∈ rets, r ∈ dictKeys g := by
    intro r hr
    exact List.mem_of_mem_filter hr
  have hrets_nd : rets.Nodup := hnd.filter _
  have hsolo_rets : solo ∉ rets := fun h => hsolo_not (hrets_sub solo h)
  set g1 : BlockMap := g ++ [(solo, soloBlk)] with hg1
  have hg1add : add_node g soloBlk = g1 := by
    rw [add_node, hsoloBlk]
    show dictSet g solo _ = g1
    rw [dictSet_of_not_mem _ _ _ hsolo_not, hg1]
  have hkeys1 : dictKeys g1 = dictKeys g ++ [solo] := by
    rw [hg1, dictKeys_append]; rfl
  have hnd1 : (dictKeys g1).Nodup := by
    rw [hkeys1]
    refine List.Nodup.append hnd (List.nodup_singleton solo) ?_
    intro x hx hx2
    simp only [List.mem_singleton] at hx2
    subst hx2
    exact hsolo_not hx
  have hwf1 : ∀ p ∈ g1, (p.2).bbegin = p.1 := by
    intro p hp
    rw [hg1] at hp
    rcases List.mem_append.mp hp with hp | hp
    · exact hwf p hp
    · simp only [List.mem_singleton] at hp
      subst hp
      rfl
  have hlook1_old : ∀ q, q ≠ solo → dictLookup g1 q = dictLookup g q := by
    intro q hq
    rw [hg1]
    cases hlp : dictLookup g q with
    | some v => exact dictLookup_append_left _ _ _ _ hlp
    | none =>
      rw [dictLookup_append_right _ _ _ hlp, dictLookup_cons_ne _ _ _ _ hq]
      rfl
  have hlook1_solo : dictLookup g1 solo = some soloBlk := by
    rw [hg1,
      dictLookup_append_right _ _ _ ((dictLookup_eq_none_iff g solo).mpr hsolo_not),
      dictLookup_eq_head]
  have hmem1 : ∀ r ∈ rets, r ∈ dictKeys g1 := by
    intro r hr
    rw [hkeys1]
    exact List.mem_append.mpr (Or.inl (hrets_sub r hr))
  obtain ⟨F1, F2, F3, _, _⟩ := join_fold_spec solo rets g1 hnd1 hwf1 hrets_nd hmem1
  have hjr : join_returns g c = (rets.foldl (join_returns_step solo) g1, c + 2) := by
    rw [join_returns]
    simp only [← hrets]
    rw [if_pos hk, hg1add]
  set g2 := rets.foldl (join_returns_step solo) g1 with hg2
  refine ⟨?_, ?_, by rw [hjr]⟩
  · rw [hjr]
    show return_nodes g2 = [solo]
    rw [return_nodes, F3, hkeys1, List.filter_append]
    have hsplit : (dictKeys g ++ [solo]).filter (fun x => x ∉ rets) =
        (dictKeys g).filter (fun x => x ∉ rets) ++ [solo] := by
      rw [List.filter_append]
      simp [hsolo_rets]
    rw [hsplit, List.filter_append]
    have hA : ((dictKeys g).filter (fun x => x ∉ rets)).filter
        (fun k => ((dictLookup g2 k).map BasicBlock.is_exiting).getD false) = [] := by
      rw [List.filter_eq_nil_iff]
      intro k hkmem
      have hkg : k ∈ dictKeys g := List.mem_of_mem_filter hkmem
      have hknot : k ∉ rets := by
        have := List.of_mem_filter hkmem
        simpa using this
      have hkns : k ≠ solo := fun he => hsolo_not (he ▸ hkg)
      rw [F1 k hknot, hlook1_old k hkns]
      intro hcon
      exact hknot (List.mem_filter.mpr ⟨hkg, hcon⟩)
    have hB : ([solo] : List Label).filter
        (fun k => ((dictLookup g2 k).map BasicBlock.is_exiting).getD false) = [solo] := by
      have : dictLookup g2 solo = some soloBlk := by
        rw [F1 solo hsolo_rets, hlook1_solo]
      simp [this, hsoloBlk, BasicBlock.is_exiting, BasicBlock.jump_targets]
    have hC : rets.filter
        (fun k => ((dictLookup g2 k).map BasicBlock.is_exiting).getD false) = [] := by
      rw [List.filter_eq_nil_iff]
      intro r hr
      obtain ⟨b, _, hres⟩ := F2 r hr
      rw [hres]
      simp [replace_jump_targets_is_exiting_false]
    rw [hA, hB, hC]
    rfl
  · intro r hr
    obtain ⟨b, hb1, hbres⟩ := F2 r hr
    have hrns : r ≠ solo := fun he => hsolo_rets (he ▸ hr)
    refine ⟨b, ?_, by rw [hjr]; exact hbres⟩
    rw [← hlook1_old r hrns]
    exact hb1

/-- C7: for a block map with more than one terminating node, `join_returns`
leaves exactly one terminating node — the freshly minted synthetic one —
and every formerly terminating node's jump targets become exactly the
singleton of that node's label. -/
theorem claim_C7 (g : BlockMap) (c : Nat)
    (hnd : (dictKeys g).Nodup)
    (hwf : ∀ p ∈ g, (p.2).bbegin = p.1)
    (hfresh : ∀ i : Nat, Label.ControlLabel i ∈ dictKeys g → i < c)
    (hk : 1 < (return_nodes g).length) :
    return_nodes (join_returns g c).1 = [Label.ControlLabel c] ∧
    ∀ r ∈ return_nodes g, ∃ b, dictLookup (join_returns g c).1 r = some b ∧
      b.jump_targets = [Label.ControlLabel c] := by
  obtain ⟨h1, h2, _⟩ := join_returns_spec g c hnd hwf hfresh hk
  refine ⟨h1, fun r hr => ?_⟩
  obtain ⟨b, _, hres⟩ := h2 r hr
  exact ⟨b.replace_jump_targets [Label.ControlLabel c], hres,
    replace_jump_targets_jump_targets b _⟩

/-- Concrete two-return map used to witness the `join_returns` claims. -/
def twoReturnsMap : BlockMap :=
  [(.BCLabel 0, .basic (.BCLabel 0) (.BCLabel 2) false [] []),
   (.BCLabel 2, .basic (.BCLabel 2) (.BCLabel 4) false [] [])]

theorem claim_C7_witness :
    return_nodes (join_returns twoReturnsMap 0).1 = [Label.ControlLabel 0] :=
  (claim_C7 twoReturnsMap 0 (by decide) (by decide)
    (fun i hi => by simp [twoReturnsMap, dictKeys] at hi) (by decide)).1

/-- C8: `join_returns` is idempotent — a second call immediately after a
first call on a well-formed map returns the map and counter unchanged. -/
theorem claim_C8 (g : BlockMap) (c : Nat)
    (hnd : (dictKeys g).Nodup)
    (hwf : ∀ p ∈ g, (p.2).bbegin = p.1)
    (hfresh : ∀ i : Nat, Label.ControlLabel i ∈ dictKeys g → i < c) :
    join_returns (join_returns g c).1 (join_returns g c).2 = join_returns g c := by
  by_cases hk : 1 < (return_nodes g).length
  · obtain ⟨h1, _, _⟩ := join_returns_spec g c hnd hwf hfresh hk
    have hlen : ¬ 1 < (return_nodes (join_returns g c).1).length := by
      rw [h1]
      simp
    rw [join_returns]
    simp only [if_neg hlen]
  · have h1 : join_returns g c = (g, c) := by
      rw [join_returns]
      simp only [if_neg hk]
    rw [h1]
    exact h1

theorem claim_C8_witness :
    join_returns (join_returns twoReturnsMap 0).1 (join_returns twoReturnsMap 0).2 =
      join_returns twoReturnsMap 0 :=
  claim_C8 twoReturnsMap 0 (by decide) (by decide)
    (fun i hi => by simp [twoReturnsMap, dictKeys] at hi)

/-- C10: `replace_backedge` returns the block unchanged when the loop head
is not among its jump targets; when it is, the call succeeds exactly when
the block has that single jump target and no backedges (otherwise the
assertions fail), and on success the jump targets are emptied and the head
becomes the lone backedge.  In particular a block jumping both to its loop
header and elsewhere cannot have its header edge converted to a backedge. -/
theorem claim_C10 (b : BasicBlock) (h : Label) :
    (h ∉ b.jump_targets → b.replace_backedge h = .ok b) ∧
    (h ∈ b.jump_targets →
      ((∃ b2, b.replace_backedge h = .ok b2) ↔
        b.jump_targets.length = 1 ∧ b.backedges = [])) ∧
    (h ∈ b.jump_targets → b.jump_targets.length = 1 → b.backedges = [] →
      b.replace_backedge h = .ok (b.replace_jts_bes [] [h])) := by
  refine ⟨?_, ?_, ?_⟩
  · intro hmem
    rw [BasicBlock.replace_backedge, if_neg hmem]
  · intro hmem
    constructor
    · rintro ⟨b2, hb2⟩
      rw [BasicBlock.replace_backedge, if_pos hmem] at hb2
      by_cases hcond : b.jump_targets.length = 1 ∧ b.backedges = []
      · exact hcond
      · rw [if_neg hcond] at hb2
        cases hb2
    · rintro ⟨h1, h2⟩
      rw [BasicBlock.replace_backedge, if_pos hmem, if_pos ⟨h1, h2⟩]
      exact ⟨_, rfl⟩
  · intro hmem h1 h2
    rw [BasicBlock.replace_backedge, if_pos hmem, if_pos ⟨h1, h2⟩]

theorem claim_C10_witness :
    ((BasicBlock.basic (.BCLabel 0) (.BCLabel 2) false [.BCLabel 4] []).replace_backedge
        (.BCLabel 4) =
      .ok ((BasicBlock.basic (.BCLabel 0) (.BCLabel 2) false [.BCLabel 4]
        []).replace_jts_bes [] [.BCLabel 4])) ∧
    ((BasicBlock.basic (.BCLabel 0) (.BCLabel 2) false [.BCLabel 6] []).replace_backedge
        (.BCLabel 4) =
      .ok (BasicBlock.basic (.BCLabel 0) (.BCLabel 2) false [.BCLabel 6] [])) ∧
    ¬ ∃ b2, (BasicBlock.basic (.BCLabel 0) (.BCLabel 2) false
        [.BCLabel 4, .BCLabel 6] []).replace_backedge (.BCLabel 4) = .ok b2 :=
  ⟨(claim_C10 _ _).2.2 (by decide) (by decide) (by decide),
   (claim_C10 _ _).1 (by decide),
   fun hex => by
     have := ((claim_C10 (BasicBlock.basic (.BCLabel 0) (.BCLabel 2) false
        [.BCLabel 4, .BCLabel 6] []) (.BCLabel 4)).2.1 (by decide)).mp hex
     exact absurd this.1 (by decide)⟩

/-- C2 counterexample: on the Scenario B stream `restructure_loop` raises
the single-header assertion (`assert len(headers) == 1`) and yields no
restructured block map at all, so it does not produce a loop region with a
backedge as the claim states. -/
theorem claim_C2_counterexample :
    restructure_loopTop scenarioBMap 0 = .error .assertionError := rfl

/-- C2 (amended): for the Scenario B stream the only SCC of size at least 2
is {4, 12, 14}; it has two headers, 14 and 4, because the block at offset 0
conditionally jumps to both, so `restructure_loop` fails the single-header
assertion and produces no loop region and no backedges. -/
theorem claim_C2_amended :
    ((FlowInfo.from_bytecode scenarioB).build_basicblocks.toOption = some scenarioBMap) ∧
    ((compute_scc scenarioBMap).filter (fun s => s.length > 1) =
      [[Label.BCLabel 4, Label.BCLabel 12, Label.BCLabel 14]]) ∧
    ((find_headers_and_entries scenarioBMap
        [Label.BCLabel 4, Label.BCLabel 12, Label.BCLabel 14]).1 =
      [Label.BCLabel 14, Label.BCLabel 4]) ∧
    restructure_loopTop scenarioBMap 0 = .error .assertionError :=
  ⟨rfl, rfl, rfl, rfl⟩

/-- C9: the Scenario A stream yields initial block boundaries exactly
{0, 4, 8, 12, 14, 18} and its block map has no SCC of size at least 2. -/
theorem claim_C9 :
    ((FlowInfo.from_bytecode scenarioA).build_basicblocks.toOption = some scenarioAMap) ∧
    ((FlowInfo.from_bytecode scenarioA).block_offsets.toFinset =
      {Label.BCLabel 0, Label.BCLabel 4, Label.BCLabel 8, Label.BCLabel 12,
       Label.BCLabel 14, Label.BCLabel 18}) ∧
    (compute_scc scenarioAMap).filter (fun s => s.length > 1) = [] :=
  ⟨rfl, by decide, rfl⟩

/-! The dominator engine: `_doms`, `_post_doms`, `_find_dominators_internal`. -/

/-- Dominator-set dict. -/
abbrev Doms := List (Label × Finset Label)

/-- Python `doms[k]`; every key consulted is present at every call site, so
the default is never observed. -/
def domsLookup (d : Doms) (k : Label) : Finset Label :=
  (dictLookup d k).getD ∅

/-- Source: `preds_table[k]` as built by `_doms` — the sources of in-edges
of `k` whose target is inside the map (a set; modelled by its membership
condition over the keys in order). -/
def predsOf (g : BlockMap) (k : Label) : List Label :=
  if k ∈ dictKeys g then
    (dictKeys g).filter (fun src =>
      match dictLookup g src with
      | some b => k ∈ b.jump_targets
      | none => false)
  else []

/-- Source: `succs_table[k]` as built by `_doms` — the jump targets of `k`
that are inside the map. -/
def succsOf (g : BlockMap) (k : Label) : List Label :=
  match dictLookup g k with
  | some b => b.jump_targets.filter (fun t => t ∈ dictKeys g)
  | none => []

/-- Source: `functools.reduce(set.intersection, ...)` over a non-empty list
of sets. -/
def interList : List (Finset Label) → Finset Label
  | [] => ∅
  | x :: xs => xs.foldl (fun a b => a ∩ b) x

/-- Source: `new_doms = set([n]); if preds: new_doms |= reduce(...)`. -/
def newDoms (preds : Label → List Label) (d : Doms) (n : Label) : Finset Label :=
  if (preds n).isEmpty then {n}
  else insert n (interList ((preds n).map (fun p => domsLookup d p)))

/-- Source: the `while todo` worklist of `_find_dominators_internal`.
Python pops from the back and extends at the back; this model pops from the
front and prepends the successors, which processes the same work items (the
theorem below holds for any processing order).  The `assert len(new_doms) <
len(doms[n])` is the `assertionError` case. -/
def find_dominators_go (entries : List Label) (preds succs : Label → List Label) :
    Nat → Doms → List Label → Except PyErr Doms
  | 0, _, _ => .error .fuelOut
  | _ + 1, d, [] => .ok d
  | fuel + 1, d, n :: rest =>
    if n ∈ entries then find_dominators_go entries preds succs fuel d rest
    else
      let nd := newDoms preds d n
      if nd = domsLookup d n then find_dominators_go entries preds succs fuel d rest
      else if nd.card < (domsLookup d n).card then
        find_dominators_go entries preds succs fuel (dictSet d n nd) (succs n ++ rest)
      else .error .assertionError

/-- Source: `_find_dominators_internal` — raise `RuntimeError` when seeded
with no entries, otherwise initialize entries to their singletons and all
other nodes to the full node set and run the worklist. -/
def find_dominators_internal (entries nodes : List Label)
    (preds succs : Label → List Label) (fuel : Nat) : Except PyErr Doms :=
  if entries.isEmpty then .error .runtimeError
  else
    let init : Doms := entries.map (fun e => (e, ({e} : Finset Label))) ++
      (nodes.filter (fun n => n ∉ entries)).map (fun n => (n, nodes.toFinset))
    find_dominators_go entries preds succs fuel init
      (nodes.filter (fun n => n ∉ entries))

/-- Source: `_doms` — dominators with entries the nodes without
predecessors in the map. -/
def doms_of (g : BlockMap) (fuel : Nat) : Except PyErr Doms :=
  find_dominators_internal
    ((dictKeys g).filter (fun k => (predsOf g k).isEmpty))
    (dictKeys g) (predsOf g) (succsOf g) fuel

/-- Source: `_post_doms` — the same worklist on the reversed edge relation,
seeded with the nodes that have no jump target inside the map. -/
def post_doms_of (g : BlockMap) (fuel : Nat) : Except PyErr Doms :=
  find_dominators_internal
    ((dictKeys g).filter (fun k => (succsOf g k).isEmpty))
    (dictKeys g) (succsOf g) (predsOf g) fuel

theorem dictLookup_map_update_ne {α : Type} (d : List (Label × α))
    (k q : Label) (v : α) (h : q ≠ k) :
    dictLookup (d.map (fun p => if p.1 = k then (k, v) else p)) q =
      dictLookup d q := by
  induction d with
  | nil => rfl
  | cons p rest ih =>
    obtain ⟨a, w⟩ := p
    by_cases ha : a = k
    · subst ha
      have h1 : (if ((a, w) : Label × α).1 = a then (a, v) else (a, w)) =
          (a, v) := by simp
      rw [List.map_cons, h1, dictLookup_cons_ne _ _ _ _ h,
        dictLookup_cons_ne _ _ _ _ h, ih]
    · have h1 : (if ((a, w) : Label × α).1 = k then (k, v) else (a, w)) =
          (a, w) := by simp [ha]
      rw [List.map_cons, h1]
      by_cases hq : q = a
      · subst hq
        rw [dictLookup_eq_head, dictLookup_eq_head]
      · rw [dictLookup_cons_ne _ _ _ _ hq, dictLookup_cons_ne _ _ _ _ hq, ih]

theorem dictLookup_map_update_self {α : Type} (d : List (Label × α))
    (k : Label) (v : α) (hmem : k ∈ dictKeys d) :
    dictLookup (d.map (fun p => if p.1 = k then (k, v) else p)) k = some v := by
  induction d with
  | nil => simp [dictKeys] at hmem
  | cons p rest ih =>
    obtain ⟨a, w⟩ := p
    by_cases ha : a = k
    · subst ha
      have h1 : (if ((a, w) : Label × α).1 = a then (a, v) else (a, w)) =
          (a, v) := by simp
      rw [List.map_cons, h1, dictLookup_eq_head]
    · have h1 : (if ((a, w) : Label × α).1 = k then (k, v) else (a, w)) =
          (a, w) := by simp [ha]
      have hka : k ≠ a := fun he => ha he.symm
      rw [List.map_cons, h1, dictLookup_cons_ne _ _ _ _ hka]
      refine ih ?_
      simp only [dictKeys_cons, List.mem_cons] at hmem
      exact hmem.resolve_left hka

theorem dictLookup_dictSet_self {α : Type} (d : List (Label × α)) (k : Label)
    (v : α) : dictLookup (dictSet d k v) k = some v := by
  rw [dictSet]
  by_cases hmem : k ∈ dictKeys d
  · rw [if_pos hmem]
    exact dictLookup_map_update_self d k v hmem
  · rw [if_neg hmem,
      dictLookup_append_right _ _ _ ((dictLookup_eq_none_iff d k).mpr hmem),
      dictLookup_eq_head]

theorem dictLookup_dictSet_ne {α : Type} (d : List (Label × α)) (k q : Label)
    (v : α) (h : q ≠ k) : dictLookup (dictSet d k v) q = dictLookup d q := by
  rw [dictSet]
  by_cases hmem : k ∈ dictKeys d
  · rw [if_pos hmem]
    exact dictLookup_map_update_ne d k q v h
  · rw [if_neg hmem]
    cases hlp : dictLookup d q with
    | some w => exact dictLookup_append_left _ _ _ _ hlp
    | none =>
      rw [dictLookup_append_right _ _ _ hlp, dictLookup_cons_ne _ _ _ _ h]
      rfl

theorem domsLookup_dictSet_self (d : Doms) (k : Label) (v : Finset Label) :
    domsLookup (dictSet d k v) k = v := by
  rw [domsLookup, dictLookup_dictSet_self]
  rfl

theorem domsLookup_dictSet_ne (d : Doms) (k q : Label) (v : Finset Label)
    (h : q ≠ k) : domsLookup (dictSet d k v) q = domsLookup d q := by
  rw [domsLookup, dictLookup_dictSet_ne _ _ _ _ h, domsLookup]

theorem dictLookup_map_pair {α : Type} (f : Label → α) (l : List Label)
    (k : Label) :
    dictLookup (l.map (fun e => (e, f e))) k =
      if k ∈ l then some (f k) else none := by
  induction l with
  | nil => simp [dictLookup]
  | cons a rest ih =>
    by_cases hk : k = a
    · subst hk
      simp [List.map_cons, dictLookup_eq_head]
    · rw [List.map_cons, dictLookup_cons_ne _ _ _ _ hk, ih]
      simp [hk]

theorem newDoms_def (preds : Label → List Label) (d : Doms) (n : Label) :
    newDoms preds d n =
      if (preds n).isEmpty then {n}
      else insert n (interList ((preds n).map (fun p => domsLookup d p))) := rfl

/-- Worklist invariant for `_find_dominators_internal`: entries stay at
their singleton, every node contains itself, and every settled (not
enqueued) non-entry node satisfies the fixpoint equation. -/
def DomsInv (entries nodes : List Label) (preds : Label → List Label)
    (d : Doms) (todo : List Label) : Prop :=
  (∀ e ∈ entries, domsLookup d e = {e}) ∧
  (∀ n ∈ nodes, n ∈ domsLookup d n) ∧
  (∀ n ∈ nodes, n ∉ entries → n ∉ todo → domsLookup d n = newDoms preds d n) ∧
  (∀ t ∈ todo, t ∈ nodes)

theorem find_dominators_go_spec (entries nodes : List Label)
    (preds succs : Label → List Label)
    (hsuccs : ∀ n m, m ∈ nodes → n ∈ preds m → m ∈ succs n)
    (hsuccs_nodes : ∀ n m, m ∈ succs n → m ∈ nodes)
    (fuel : Nat) :
    ∀ (d : Doms) (todo : List Label) (res : Doms),
      DomsInv entries nodes preds d todo →
      find_dominators_go entries preds succs fuel d todo = .ok res →
      DomsInv entries nodes preds res [] := by
  induction fuel with
  | zero =>
    intro d todo res _ hrun
    cases hrun
  | succ f ih =>
    intro d todo res hinv hrun
    cases todo with
    | nil =>
      obtain ⟨a, b, c, _⟩ := hinv
      have hdres : d = res := by
        have h2 : Except.ok (ε := PyErr) d = .ok res := hrun
        cases h2
        rfl
      subst hdres
      exact ⟨a, b, fun n hn hne _ => c n hn hne (by simp), by simp⟩
    | cons n rest =>
      obtain ⟨a, b, c, dd⟩ := hinv
      have hn_nodes : n ∈ nodes := dd n (by simp)
      rw [find_dominators_go] at hrun
      by_cases hent : n ∈ entries
      · rw [if_pos hent] at hrun
        refine ih d rest res ⟨a, b, ?_, fun t ht => dd t (by simp [ht])⟩ hrun
        intro m hm hme hmr
        by_cases hmn : m = n
        · exact absurd (hmn ▸ hent) hme
        · exact c m hm hme (by simp [hmn, hmr])
      · rw [if_neg hent] at hrun
        by_cases heq : newDoms preds d n = domsLookup d n
        · rw [if_pos heq] at hrun
          refine ih d rest res ⟨a, b, ?_, fun t ht => dd t (by simp [ht])⟩ hrun
          intro m hm hme hmr
          by_cases hmn : m = n
          · subst hmn
            exact heq.symm
          · exact c m hm hme (by simp [hmn, hmr])
        · rw [if_neg heq] at hrun
          by_cases hcard : (newDoms preds d n).card < (domsLookup d n).card
          · rw [if_pos hcard] at hrun
            refine ih (dictSet d n (newDoms preds d n)) (succs n ++ rest) res
              ⟨?_, ?_, ?_, ?_⟩ hrun
            · intro e he
              have hen : e ≠ n := fun hc => hent (hc ▸ he)
              rw [domsLookup_dictSet_ne _ _ _ _ hen]
              exact a e he
            · intro m hm
              by_cases hmn : m = n
              · subst hmn
                rw [domsLookup_dictSet_self, newDoms]
                by_cases hp : (preds m).isEmpty
                · rw [if_pos hp]
                  exact Finset.mem_singleton_self m
                · rw [if_neg hp]
                  exact Finset.mem_insert_self m _
              · rw [domsLookup_dictSet_ne _ _ _ _ hmn]
                exact b m hm
            · intro m hm hme hmt
              have hm_succ : m ∉ succs n := fun hc =>
                hmt (List.mem_append.mpr (Or.inl hc))
              have hm_rest : m ∉ rest := fun hc =>
                hmt (List.mem_append.mpr (Or.inr hc))
              have hcongr : ∀ q, n ∉ preds q →
                  newDoms preds (dictSet d n (newDoms preds d n)) q =
                    newDoms preds d q := by
                intro q hq
                have hmap : (preds q).map
                    (fun p => domsLookup (dictSet d n (newDoms preds d n)) p) =
                    (preds q).map (fun p => domsLookup d p) := by
                  refine List.map_congr_left ?_
                  intro p hp2
                  have hpn : p ≠ n := fun hc => hq (hc ▸ hp2)
                  rw [domsLookup_dictSet_ne _ _ _ _ hpn]
                by_cases hp : (preds q).isEmpty
                · rw [newDoms_def, if_pos hp, newDoms_def, if_pos hp]
                · rw [newDoms_def, if_neg hp, hmap, newDoms_def, if_neg hp]
              by_cases hmn : m = n
              · subst hmn
                by_cases hp : m ∈ preds m
                · exact absurd (hsuccs m m hm hp) hm_succ
                · rw [domsLookup_dictSet_self, hcongr m hp]
              · have hm_not_pred : n ∉ preds m := fun hc =>
                  hm_succ (hsuccs n m hm hc)
                rw [domsLookup_dictSet_ne _ _ _ _ hmn, hcongr m hm_not_pred]
                exact c m hm hme (by simp [hmn, hm_rest])
            · intro t ht
              rcases List.mem_append.mp ht with ht | ht
              · exact hsuccs_nodes n t ht
              · exact dd t (by simp [ht])
          · rw [if_neg hcard] at hrun
            cases hrun

/-- C4: partial correctness of the dominator engine — whenever `_doms`
returns, every node is in its own dominator set, every entry (a node
without predecessors in the map, in particular the unique entry when there
is one) has dominator set exactly its singleton, and every node with a
non-empty predecessor set satisfies
doms(n) = {n} ∪ (⋂ over p in preds(n) of doms(p)). -/
theorem claim_C4 (g : BlockMap) (fuel : Nat) (d : Doms)
    (hok : doms_of g fuel = .ok d) :
    (∀ n ∈ dictKeys g, n ∈ domsLookup d n) ∧
    (∀ e ∈ dictKeys g, predsOf g e = [] → domsLookup d e = {e}) ∧
    (∀ n ∈ dictKeys g, predsOf g n ≠ [] →
      domsLookup d n =
        insert n (interList ((predsOf g n).map (fun p => domsLookup d p)))) := by
  have hsuccs : ∀ n m, m ∈ dictKeys g → n ∈ predsOf g m → m ∈ succsOf g n := by
    intro n m hm hpred
    rw [predsOf, if_pos hm, List.mem_filter] at hpred
    obtain ⟨hn_keys, hcond⟩ := hpred
    cases hlk : dictLookup g n with
    | none =>
      rw [hlk] at hcond
      simp at hcond
    | some b =>
      rw [hlk] at hcond
      simp only [decide_eq_true_eq] at hcond
      rw [succsOf, hlk]
      exact List.mem_filter.mpr ⟨hcond, by simp [hm]⟩
  have hsuccs_nodes : ∀ n m, m ∈ succsOf g n → m ∈ dictKeys g := by
    intro n m hmem
    rw [succsOf] at hmem
    cases hlk : dictLookup g n with
    | none =>
      rw [hlk] at hmem
      simp at hmem
    | some b =>
      rw [hlk] at hmem
      have := List.of_mem_filter hmem
      simpa using this
  simp only [doms_of, find_dominators_internal] at hok
  by_cases hempty : ((dictKeys g).filter (fun k => (predsOf g k).isEmpty)).isEmpty
  · rw [if_pos hempty] at hok
    cases hok
  · rw [if_neg hempty] at hok
    have hinv : DomsInv ((dictKeys g).filter (fun k => (predsOf g k).isEmpty))
        (dictKeys g) (predsOf g)
        (((dictKeys g).filter (fun k => (predsOf g k).isEmpty)).map
            (fun e => (e, ({e} : Finset Label))) ++
          ((dictKeys g).filter (fun n =>
              n ∉ (dictKeys g).filter (fun k => (predsOf g k).isEmpty))).map
            (fun n => (n, (dictKeys g).toFinset)))
        ((dictKeys g).filter (fun n =>
          n ∉ (dictKeys g).filter (fun k => (predsOf g k).isEmpty))) := by
      refine ⟨?_, ?_, ?_, ?_⟩
      · intro e he
        rw [domsLookup, dictLookup_append_left]
        · rfl
        · rw [dictLookup_map_pair, if_pos he]
      · intro n hn
        by_cases hent : n ∈ (dictKeys g).filter (fun k => (predsOf g k).isEmpty)
        · rw [domsLookup, dictLookup_append_left]
          · exact Finset.mem_singleton_self n
          · rw [dictLookup_map_pair, if_pos hent]
        · rw [domsLookup, dictLookup_append_right, dictLookup_map_pair, if_pos]
          · exact List.mem_toFinset.mpr hn
          · exact List.mem_filter.mpr ⟨hn, by simp [hent]⟩
          · rw [dictLookup_map_pair, if_neg hent]
      · intro m hm hme hmt
        exact absurd (List.mem_filter.mpr ⟨hm, by simp [hme]⟩) hmt
      · intro t ht
        exact List.mem_of_mem_filter ht
    obtain ⟨A, B, C, _⟩ := find_dominators_go_spec
      ((dictKeys g).filter (fun k => (predsOf g k).isEmpty)) (dictKeys g)
      (predsOf g) (succsOf g) hsuccs hsuccs_nodes fuel _ _ d hinv hok
    refine ⟨B, ?_, ?_⟩
    · intro e he hpe
      exact A e (List.mem_filter.mpr ⟨he, by simp [hpe]⟩)
    · intro n hn hpne
      have hnent : n ∉ (dictKeys g).filter (fun k => (predsOf g k).isEmpty) := by
        intro hc
        have := List.of_mem_filter hc
        simp only [List.isEmpty_iff, decide_eq_true_eq] at this
        exact hpne this
      have := C n hn hnent (by simp)
      rw [this, newDoms_def, if_neg]
      simp [List.isEmpty_iff, hpne]

/-- Concrete diamond graph used to witness the dominator claim. -/
def domsDemoMap : BlockMap :=
  [(.BCLabel 0, .basic (.BCLabel 0) (.BCLabel 2) false [.BCLabel 2, .BCLabel 4] []),
   (.BCLabel 2, .basic (.BCLabel 2) (.BCLabel 4) false [.BCLabel 6] []),
   (.BCLabel 4, .basic (.BCLabel 4) (.BCLabel 6) false [.BCLabel 6] []),
   (.BCLabel 6, .basic (.BCLabel 6) (.BCLabel 8) false [] [])]

theorem claim_C4_witness :
    (Label.BCLabel 6) ∈ domsLookup ((doms_of domsDemoMap 50).toOption.getD [])
      (Label.BCLabel 6) := by
  have h : doms_of domsDemoMap 50 =
      .ok ((doms_of domsDemoMap 50).toOption.getD []) := rfl
  exact (claim_C4 domsDemoMap 50 _ h).1 _ (by decide)

/-! Immediate dominators, head lookup, reachability — the helpers of
`restructure_branch`. -/

/-- Injection of labels into a lexicographic pair, giving `Label` a
computable linear order (used only to enumerate finite sets of labels in a
deterministic order when modelling Python set iteration). -/
def labelLex (l : Label) : Bool ×ₗ Int :=
  toLex ((match l with | .BCLabel _ => false | .ControlLabel _ => true),
    labelKey l)

theorem labelLex_injective : Function.Injective labelLex := by
  intro a b hab
  cases a with
  | BCLabel o1 =>
    cases b with
    | BCLabel o2 =>
      simp [labelLex, labelKey] at hab
      exact congrArg Label.BCLabel hab
    | ControlLabel i2 =>
      simp [labelLex, labelKey] at hab
  | ControlLabel i1 =>
    cases b with
    | BCLabel o2 =>
      simp [labelLex, labelKey] at hab
    | ControlLabel i2 =>
      simp [labelLex, labelKey] at hab
      exact congrArg Label.ControlLabel hab

instance : LinearOrder Label := LinearOrder.lift' labelLex labelLex_injective

/-- One `for k, vs in idoms.items()` sweep of `_imm_doms`: each key's set
loses the (current) idom sets of its members; Python mutates the dict in
place, so later keys in the same sweep observe earlier updates. -/
def imm_sweep (d : Doms) : Doms :=
  (dictKeys d).foldl (fun acc k =>
    let vs := domsLookup acc k
    let vs2 := vs \ vs.sup (fun v => domsLookup acc v)
    dictSet acc k vs2) d

/-- Source: the `while changed` loop of `_imm_doms`; the sets only shrink,
so "nothing changed" is exactly "the sweep is the identity". -/
def imm_fix : Nat → Doms → Except PyErr Doms
  | 0, _ => .error .fuelOut
  | f + 1, d =>
    let d2 := imm_sweep d
    if d2 = d then .ok d2 else imm_fix f d2

/-- Source: `_imm_doms` — subtract each node from its own set, iterate the
sweep to a fixpoint, then keep exactly the keys whose set is a singleton;
`[v] = vs` raises on a non-singleton non-empty set. -/
def imm_doms (d : Doms) (fuel : Nat) : Except PyErr (List (Label × Label)) := do
  let idoms0 : Doms := d.map (fun p => (p.1, p.2 \ {p.1}))
  let idf ← imm_fix fuel idoms0
  (dictKeys idf).foldlM (fun out k => do
      let vs := domsLookup idf k
      if hvs : vs = ∅ then pure out
      else if vs.card = 1 then
        pure (dictSet out k
          (vs.min' (Finset.nonempty_iff_ne_empty.mpr hvs)))
      else (.error .runtimeError : Except PyErr (List (Label × Label)))) []

/-- Source: `BlockMap.find_head` — the unique key that is nobody's jump
target; asserts uniqueness. -/
def find_head (g : BlockMap) : Except PyErr Label :=
  let heads := (dictKeys g).filter (fun k =>
    ! (dictKeys g).any (fun b =>
      match dictLookup g b with
      | some blk => decide (k ∈ blk.jump_targets)
      | none => false))
  match heads with
  | [h] => .ok h
  | _ => .error .assertionError

/-- Upper bound on the work of a depth-first reachability search. -/
def graphSize (g : BlockMap) : Nat :=
  g.foldl (fun a p => a + p.2.jump_targets.length + 1) 1

/-- Source: the `while True` of `is_reachable_dfs`; Python pops from the
back of `to_vist` and extends at the back, modelled by a front stack whose
pushes are reversed. -/
def is_reachable_go (g : BlockMap) (endl : Label) :
    Nat → List Label → List Label → Except PyErr Bool
  | 0, _, _ => .error .fuelOut
  | _ + 1, _, [] => .ok false
  | fuel + 1, seen, block :: stack =>
    if block ∈ seen then is_reachable_go g endl fuel seen stack
    else if block = endl then .ok true
    else
      match dictLookup g block with
      | some b =>
          is_reachable_go g endl fuel (block :: seen)
            (b.jump_targets.reverse ++ stack)
      | none => is_reachable_go g endl fuel (block :: seen) stack

/-- Source: `is_reachable_dfs` — is `endl` reachable from `bbegin` over
jump-target edges; `bbmap.graph[begin]` raises when `begin` is absent. -/
def is_reachable_dfs (g : BlockMap) (bbegin endl : Label) (fuel : Nat) :
    Except PyErr Bool :=
  match dictLookup g bbegin with
  | some b => is_reachable_go g endl fuel [] b.jump_targets.reverse
  | none => .error .keyError

/-- Source: `_iter_branch_regions` — branch points are nodes with more than
one jump target whose immediate postdominator's immediate dominator is the
node itself; the generator materializes the graph items before the caller
mutates the map, so the whole list is computed on the initial graph with
the initial dominator maps. -/
def iter_branch_regions (g : BlockMap) (immdoms postimmdoms : List (Label × Label)) :
    Except PyErr (List (Label × Label)) :=
  g.foldlM (fun acc p =>
    if p.2.jump_targets.length > 1 then
      match dictLookup postimmdoms p.1 with
      | some endl =>
        match dictLookup immdoms endl with
        | some ib =>
            if ib = p.1 then pure (acc ++ [(p.1, endl)]) else pure acc
        | none => .error .keyError
      | none => pure acc
    else pure acc) []

/-- Generous fuel for a dominator-worklist run on a given map. -/
def dom_fuel (g : BlockMap) : Nat :=
  (g.length + 2) * (g.length + 2) * (g.length + 2)

/-- Generous fuel for the `_imm_doms` sweep fixpoint. -/
def imm_fuel (d : Doms) : Nat :=
  d.foldl (fun a p => a + p.2.card) 2

/-- Source: the `while True` walk of the head-extraction step — follow
single-successor edges from the current head until `begin`, collecting the
visited labels; `jump_targets[0]` raises on an empty tuple. -/
def head_walk (g : BlockMap) (bbegin : Label) :
    Nat → Label → Except PyErr (List Label)
  | 0, _ => .error .fuelOut
  | f + 1, cur =>
    if cur = bbegin then .ok [cur]
    else
      match dictLookup g cur with
      | some b =>
        match b.jump_targets with
        | t :: _ => do
            let rest ← head_walk g bbegin f t
            pure (cur :: rest)
        | [] => .error .stopIterIndex
      | none => .error .keyError

/-- Python `bbmap.graph[k]` — `KeyError` when absent. -/
def lookupE (g : BlockMap) (k : Label) : Except PyErr BasicBlock :=
  match dictLookup g k with
  | some b => .ok b
  | none => .error .keyError

/-- Locals of `restructure_branch` threaded across the branch-region loop:
the graph, the counter, the (re)computed dominator structures, and the
queue of labels whose region subgraphs are scheduled for the recursive
pass. -/
structure BranchState where
  graph : BlockMap
  counter : Nat
  doms : Doms
  postdoms : Doms
  immdoms : List (Label × Label)
  postimmdoms : List (Label × Label)
  queue : List Label

/-- Locals of the empty-arm-filling double loop. -/
structure ArmFillState where
  graph : BlockMap
  counter : Nat
  njts : List Label
  changed : Bool

/-- Locals of the arm-extraction loop. -/
structure ArmState where
  graph : BlockMap
  counter : Nat
  queue : List Label

/-- Source: the body of `restructure_branch`'s `for begin, end in
_iter_branch_regions(...)` loop — head extraction, empty-arm filling with
dominator recomputation, arm partitioning, tail extraction, arm
extraction.  The recursive calls are deferred (queued), exactly as the
source collects `recursive_subregions`; the queue stores the label under
which each queued region block was inserted. -/
def process_one_branch_region (st : BranchState) (be : Label × Label) :
    Except PyErr BranchState := do
  let bbegin := be.1
  let endl := be.2
  let head ← find_head st.graph
  let head_sub ← head_walk st.graph bbegin (st.graph.length + 1) head
  let subgraph ← head_sub.foldlM (fun sg k => do
      let b ← lookupE st.graph k
      pure (add_node sg b)) ([] : BlockMap)
  let beginBlk ← lookupE st.graph bbegin
  let headRegion : BasicBlock := .region head bbegin false
      beginBlk.jump_targets [] .head (.htuple [head]) subgraph none
  let g3 := dictSet (head_sub.foldl (fun gg k => dictPop gg k) st.graph)
      bbegin headRegion
  let beginBlk3 ← lookupE g3 bbegin
  let jts := beginBlk3.jump_targets
  let afs ← jts.foldlM (fun (s : ArmFillState) a =>
      jts.foldlM (fun (s : ArmFillState) b =>
        if a = b then pure s
        else do
          let r ← is_reachable_dfs s.graph a b (2 * graphSize s.graph + 2)
          if r then
            let lbl := Label.ControlLabel s.counter
            let blk : BasicBlock := .basic lbl (.ControlLabel (s.counter + 1))
                true [b] []
            pure ⟨add_node s.graph blk, s.counter + 2, s.njts ++ [lbl], true⟩
          else pure ⟨s.graph, s.counter, s.njts ++ [b], s.changed⟩) s)
      (⟨g3, st.counter, [], false⟩ : ArmFillState)
  let (g4, c4, doms4, postdoms4, imm4, postimm4) ←
    if afs.changed then do
      let bblk ← lookupE afs.graph bbegin
      let g4 := add_node (dictPop afs.graph bbegin)
          (bblk.replace_jump_targets afs.njts)
      let doms4 ← doms_of g4 (dom_fuel g4)
      let postdoms4 ← post_doms_of g4 (dom_fuel g4)
      let postimm4 ← imm_doms postdoms4 (imm_fuel postdoms4)
      let imm4 ← imm_doms doms4 (imm_fuel doms4)
      pure (g4, afs.counter, doms4, postdoms4, imm4, postimm4)
    else
      pure (afs.graph, afs.counter, st.doms, st.postdoms, st.immdoms,
        st.postimmdoms)
  let beginBlk4 ← lookupE g4 bbegin
  let branch_regions := beginBlk4.jump_targets.map (fun bra =>
    (bra, (dictKeys doms4).filter (fun k =>
      decide (bra ∈ domsLookup doms4 k) && decide (endl ∉ domsLookup doms4 k))))
  let tail0 := (dictKeys g4).filter (fun k =>
    (! branch_regions.any (fun br => decide (k = br.1) || decide (k ∈ br.2)))
      && decide (k ≠ bbegin))
  let he := find_headers_and_entries g4 tail0
  let headers := he.1
  let entriesT := he.2
  let ex := find_exits tail0 g4
  let exitsT := ex.1
  let (entry_label, g5, c5, tail1) ←
    if headers.length > 1 then do
      let r ← join_headers headers entriesT g4 c4
      pure (r.1, r.2.1, r.2.2, tail0 ++ [r.1])
    else
      match headers with
      | h :: _ =>
          pure ((h, g4, c4, tail0) : Label × BlockMap × Nat × List Label)
      | [] => .error .stopIterIndex
  let subgraphT ← tail1.foldlM (fun sg k => do
      let b ← lookupE g5 k
      pure (add_node sg b)) ([] : BlockMap)
  let tailEnd ← match exitsT with
    | e :: _ => pure e
    | [] => (.error .stopIterIndex : Except PyErr Label)
  let tailRegion : BasicBlock := .region entry_label tailEnd false [] []
      .tail (.hset headers) subgraphT none
  let g6 := dictSet (tail1.foldl (fun gg k => dictPop gg k) g5)
      entry_label tailRegion
  let q6 := if subgraphT.isEmpty then st.queue else st.queue ++ [entry_label]
  let armRes ← branch_regions.foldlM (fun (s : ArmState) bri => do
      let bra := bri.1
      let inner0 := bri.2
      if inner0.isEmpty then pure s
      else do
        let pe := find_exits inner0 s.graph
        let (inner1, g7, c7, preL, postL) ←
          if pe.1.length ≠ 1 ∧ pe.2.length = 1 then do
            let post ← (match pe.2 with
              | p :: _ => pure p
              | [] => (.error .stopIterIndex : Except PyErr Label))
            let (innerX, gX, preX, cX) :=
              join_pre_exits pe.1 post inner0 s.graph s.counter
            pure ((innerX, gX, cX, preX, post) :
              List Label × BlockMap × Nat × Label × Label)
          else if pe.1.length ≠ 1 ∧ pe.2.length > 1 then
            let (innerX, gX, preX, postX, cX) :=
              join_exits inner0 s.graph pe.2 s.counter
            pure (innerX, gX, cX, preX, postX)
          else do
            let pre ← (match pe.1 with
              | p :: _ => pure p
              | [] => (.error .stopIterIndex : Except PyErr Label))
            let preBlk ← lookupE s.graph pre
            let post ← (match preBlk.jump_targets with
              | t :: _ => pure t
              | [] => (.error .stopIterIndex : Except PyErr Label))
            pure (inner0, s.graph, s.counter, pre, post)
        let subg ← inner1.foldlM (fun sg k => do
            let b ← lookupE g7 k
            pure (add_node sg b)) ([] : BlockMap)
        let armRegion : BasicBlock := .region bra endl false [postL] []
            .branch (.hmap []) subg (some preL)
        let g8 := dictSet (inner1.foldl (fun gg k => dictPop gg k) g7)
            bra armRegion
        let q8 := if subg.isEmpty then s.queue else s.queue ++ [bra]
        pure (⟨g8, c7, q8⟩ : ArmState)) (⟨g6, c5, q6⟩ : ArmState)
  pure { graph := armRes.graph, counter := armRes.counter, doms := doms4,
         postdoms := postdoms4, immdoms := imm4, postimmdoms := postimm4,
         queue := armRes.queue }

/-- Source: `restructure_branch` — compute dominator structures, find the
branch regions on the initial graph (the generator materializes the items
and keeps the initial dominator maps), process each region, then recurse
into every queued subregion.  In Python the queue holds mutable references
to the region subgraphs; here each queued region is looked up by the label
it was inserted under and its subregion is rebuilt in place. -/
def restructure_branch (fuel : Nat) :
    BlockMap → Nat → Except PyErr (BlockMap × Nat) :=
  Nat.rec (motive := fun _ => BlockMap → Nat → Except PyErr (BlockMap × Nat))
    (fun _ _ => .error .fuelOut)
    (fun _ ih g c => do
      let doms0 ← doms_of g (dom_fuel g)
      let postdoms0 ← post_doms_of g (dom_fuel g)
      let postimm0 ← imm_doms postdoms0 (imm_fuel postdoms0)
      let imm0 ← imm_doms doms0 (imm_fuel doms0)
      let regions ← iter_branch_regions g imm0 postimm0
      let st ← regions.foldlM process_one_branch_region
        (⟨g, c, doms0, postdoms0, imm0, postimm0, []⟩ : BranchState)
      st.queue.foldlM (fun (p : BlockMap × Nat) lbl =>
        match dictLookup p.1 lbl with
        | some (.region b e f jts bes k hd sub ex) => do
            let r ← ih sub p.2
            pure (dictSet p.1 lbl (.region b e f jts bes k hd r.1 ex), r.2)
        | _ => pure p) (st.graph, st.counter))
    fuel

/-- Canonical fuel for a `restructure_branch` call. -/
def restructure_branchTop (g : BlockMap) (c : Nat) :
    Except PyErr (BlockMap × Nat) :=
  restructure_branch (g.length + 2) g c

/-! The top-level orchestrator `ByteFlow.restructure` and the region
invariant checker. -/

/-- Source: `ByteFlow.restructure` — `bbmap = deepcopy(self.bbmap)`, then
`self.bbmap.join_returns()` (mutating the receiver's map, not the copy),
then `restructure_loop(bbmap)` and `restructure_branch(bbmap)` on the
still-unclosed copy.  Returns the receiver's map after the call, the
returned flow's map, and the counter. -/
def restructure (bbmap : BlockMap) (c : Nat) :
    Except PyErr (BlockMap × BlockMap × Nat) := do
  let copy := bbmap
  let (selfMap, c1) := join_returns bbmap c
  let (g2, c2) ← restructure_loopTop copy c1
  let (g3, c3) ← restructure_branchTop g2 c2
  pure (selfMap, g3, c3)

/-- Labels held by the dynamically-typed `headers` field: dict keys, tuple
elements, or set elements. -/
def headersLabels : Headers → List Label
  | .hmap l => dictKeys l
  | .htuple l => l
  | .hset l => l

def kindOf : BasicBlock → Option RegionKind
  | .region _ _ _ _ _ k _ _ _ => some k
  | _ => none

def headerLabelsOf : BasicBlock → List Label
  | .region _ _ _ _ _ _ hd _ _ => headersLabels hd
  | _ => []

def subregionKeysOf : BasicBlock → List Label
  | .region _ _ _ _ _ _ _ sub _ => dictKeys sub
  | _ => []

/-- Does some region block in the map (at any nesting depth up to the given
bound, including regions stored inside `headers` dicts) have a header label
that is also a key of its own subregion graph? -/
def hasHeaderOverlap (fuel : Nat) : BlockMap → Bool :=
  Nat.rec (motive := fun _ => BlockMap → Bool)
    (fun _ => false)
    (fun _ ih g => g.any (fun p =>
      match p.2 with
      | .basic _ _ _ _ _ => false
      | .region _ _ _ _ _ _ hd sub _ =>
          (headersLabels hd).any (fun h => decide (h ∈ dictKeys sub))
          || ih sub
          || (match hd with
              | .hmap l => ih l
              | _ => false)))
    fuel

/-- The Scenario A map taken through the data path that `restructure`
applies to the returned flow's map: loop restructuring then branch
restructuring (`join_returns` is a no-op for Scenario A, which has a single
return). -/
def scenarioA_restructured : Except PyErr (BlockMap × Nat) := do
  let lr ← restructure_loopTop scenarioAMap 0
  restructure_branchTop lr.1 lr.2

def scenarioA_final : BlockMap := (scenarioA_restructured.toOption.getD ([], 0)).1

/-- C3: after loop and branch restructuring of Scenario A, the block map
contains regions whose header labels are keys of their own subregion: the
head region inserted under label 0 has headers tuple `(0,)` and subregion
keys `{0}` (and the tail regions violate the invariant likewise), so the
claimed invariant fails on the code. -/
theorem claim_C3 :
    scenarioA_restructured.toOption.isSome = true ∧
    hasHeaderOverlap (scenarioA_final.length + 2) scenarioA_final = true ∧
    (dictLookup scenarioA_final (.BCLabel 0)).map kindOf = some (some .head) ∧
    (dictLookup scenarioA_final (.BCLabel 0)).map headerLabelsOf =
      some [.BCLabel 0] ∧
    (dictLookup scenarioA_final (.BCLabel 0)).map subregionKeysOf =
      some [.BCLabel 0] := by
  refine ⟨by decide, by decide, ?_, ?_, ?_⟩ <;> decide

/-- Bytecode stream with one conditional jump and two returns, on which
`restructure` diverges from the specified orchestration. -/
def c1Stream : List Instruction := [
  ⟨.POP_JUMP_IF_TRUE, 0, 4, false⟩,
  ⟨.RETURN_VALUE, 2, 0, false⟩,
  ⟨.RETURN_VALUE, 4, 0, false⟩ ]

def c1Map : BlockMap :=
  ((FlowInfo.from_bytecode c1Stream).build_basicblocks).toOption.getD []

/-- The block map the claim prescribes for the returned flow:
`join_returns`, then `restructure_loop`, then `restructure_branch`, applied
in order to the initial map. -/
def c1Prescribed : Except PyErr (BlockMap × Nat) := do
  let jr := join_returns c1Map 0
  let lr ← restructure_loopTop jr.1 jr.2
  restructure_branchTop lr.1 lr.2

def c1Actual : BlockMap × BlockMap × Nat :=
  (restructure c1Map 0).toOption.getD ([], [], 0)

def c1PrescribedMap : BlockMap := (c1Prescribed.toOption.getD ([], 0)).1

/-- C1: on a stream with two returns, `restructure` applies `join_returns`
to the receiver's own block map (mutating it in place: it drops from two
terminating nodes to one) while the returned flow's map is the unclosed
copy put through loop and branch restructuring only — it keeps two
terminating nodes, whereas the claimed composition (`join_returns`, then
`restructure_loop`, then `restructure_branch`) leaves exactly one.  The
returned map therefore differs from the claimed composition. -/
theorem claim_C1 :
    (restructure c1Map 0).toOption.isSome = true ∧
    c1Prescribed.toOption.isSome = true ∧
    (return_nodes c1Map).length = 2 ∧
    (return_nodes c1Actual.2.1).length = 2 ∧
    (return_nodes c1PrescribedMap).length = 1 ∧
    (return_nodes c1Actual.1).length = 1 := by
  refine ⟨by decide, by decide, by decide, by decide, by decide, by decide⟩

/-- Four-node cycle with two nodes exiting to the same outside target: a
loop whose exits have exactly one post-exit and two pre-exits, the case the
source marks with a constructed-but-never-raised `Exception("unreachable?")`. -/
def c6Map : BlockMap :=
  [(.BCLabel 0, .basic (.BCLabel 0) (.BCLabel 2) false [.BCLabel 2] []),
   (.BCLabel 2, .basic (.BCLabel 2) (.BCLabel 4) false [.BCLabel 4, .BCLabel 8] []),
   (.BCLabel 4, .basic (.BCLabel 4) (.BCLabel 6) false [.BCLabel 6, .BCLabel 8] []),
   (.BCLabel 6, .basic (.BCLabel 6) (.BCLabel 8) false [.BCLabel 0] []),
   (.BCLabel 8, .basic (.BCLabel 8) (.BCLabel 10) false [] [])]

/-- C6: on a loop with a single post-exit and two pre-exits the source
evaluates `Exception("unreachable?")` without raising it and falls through;
the very next use of the never-assigned local `pre_exit_label` then raises
`NameError` (and with a previously processed loop the stale labels would be
reused silently) — the condition is not raised as an invariant violation. -/
theorem claim_C6 :
    ((compute_scc c6Map).filter (fun s => s.length > 1) =
      [[.BCLabel 0, .BCLabel 2, .BCLabel 4, .BCLabel 6]]) ∧
    (find_exits [.BCLabel 0, .BCLabel 2, .BCLabel 4, .BCLabel 6] c6Map =
      ([.BCLabel 2, .BCLabel 4], [.BCLabel 8])) ∧
    restructure_loopTop c6Map 0 = .error .nameError :=
  ⟨rfl, rfl, rfl⟩

/-- Does the map contain an SCC of size at least 2 with more than one
header? -/
def multiHeaderSCCb (g : BlockMap) : Bool :=
  (compute_scc g).any (fun s =>
    decide (s.length > 1) && decide (1 < (find_headers_and_entries g s).1.length))

/-- Three loops in processing order: a well-formed loop at {2,4}; a loop at
{10,12,14,16} with one post-exit (18) and two pre-exits (12 and 14),
hitting the never-raised `unreachable?` branch and silently reusing the
first loop's exit labels; and a two-header loop {18,20} (entered at 18 from
12 and 14, and at 20 from 22).  The stale processing of the second loop
hides the edges into 18, so when the multi-header loop is processed only
header 20 remains and the single-header assertion passes. -/
def c5Map : BlockMap :=
  [(.BCLabel 0, .basic (.BCLabel 0) (.BCLabel 2) false [.BCLabel 2] []),
   (.BCLabel 2, .basic (.BCLabel 2) (.BCLabel 4) false [.BCLabel 4, .BCLabel 6] []),
   (.BCLabel 4, .basic (.BCLabel 4) (.BCLabel 6) false [.BCLabel 2] []),
   (.BCLabel 6, .basic (.BCLabel 6) (.BCLabel 8) false [] []),
   (.BCLabel 8, .basic (.BCLabel 8) (.BCLabel 10) false [.BCLabel 10] []),
   (.BCLabel 10, .basic (.BCLabel 10) (.BCLabel 12) false [.BCLabel 12] []),
   (.BCLabel 12, .basic (.BCLabel 12) (.BCLabel 14) false [.BCLabel 14, .BCLabel 18] []),
   (.BCLabel 14, .basic (.BCLabel 14) (.BCLabel 16) false [.BCLabel 16, .BCLabel 18] []),
   (.BCLabel 16, .basic (.BCLabel 16) (.BCLabel 18) false [.BCLabel 10] []),
   (.BCLabel 18, .basic (.BCLabel 18) (.BCLabel 20) false [.BCLabel 20] []),
   (.BCLabel 20, .basic (.BCLabel 20) (.BCLabel 22) false [.BCLabel 18, .BCLabel 24] []),
   (.BCLabel 22, .basic (.BCLabel 22) (.BCLabel 24) false [.BCLabel 20] []),
   (.BCLabel 24, .basic (.BCLabel 24) (.BCLabel 26) false [] [])]

/-- C5 counterexample: `c5Map` contains an SCC of size 2 with two headers,
yet `restructure_loop` returns successfully (the earlier loop's dead-branch
fall-through with stale exit labels removed one header edge from the top
level before the multi-header loop was processed). -/
theorem claim_C5_counterexample :
    multiHeaderSCCb c5Map = true ∧
    (restructure_loopTop c5Map 0).toOption.isSome = true := by
  exact ⟨by decide, by decide⟩

/-! Correctness of the mutual-reachability SCC model: `reachSet` computes
the reflexive-transitive closure of the in-map jump-target relation, so
the classes produced by `compute_scc` are genuine equivalence classes and
pairwise disjoint. -/

theorem mem_setAdd (l : List Label) (x y : Label) :
    y ∈ setAdd l x ↔ y ∈ l ∨ y = x := by
  rw [setAdd]
  by_cases h : x ∈ l
  · rw [if_pos h]
    constructor
    · exact Or.inl
    · rintro (hy | hy)
      · exact hy
      · exact hy ▸ h
  · rw [if_neg h]
    simp

theorem setAdd_extend (l : List Label) (x : Label) :
    ∃ e, setAdd l x = l ++ e := by
  rw [setAdd]
  by_cases h : x ∈ l
  · exact ⟨[], by rw [if_pos h, List.append_nil]⟩
  · exact ⟨[x], by rw [if_neg h]⟩

theorem setAdd_nodup (l : List Label) (x : Label) (h : l.Nodup) :
    (setAdd l x).Nodup := by
  rw [setAdd]
  by_cases hx : x ∈ l
  · rw [if_pos hx]; exact h
  · rw [if_neg hx]
    simpa [List.nodup_append] using ⟨h, hx⟩

theorem foldl_setAdd_extend (xs l : List Label) :
    ∃ e, xs.foldl setAdd l = l ++ e := by
  induction xs generalizing l with
  | nil => exact ⟨[], by simp⟩
  | cons x rest ih =>
    obtain ⟨e1, he1⟩ := setAdd_extend l x
    obtain ⟨e2, he2⟩ := ih (setAdd l x)
    exact ⟨e1 ++ e2, by rw [List.foldl_cons, he2, he1, List.append_assoc]⟩

theorem mem_foldl_setAdd (xs l : List Label) (y : Label) :
    y ∈ xs.foldl setAdd l ↔ y ∈ l ∨ y ∈ xs := by
  induction xs generalizing l with
  | nil => simp
  | cons x rest ih =>
    rw [List.foldl_cons, ih, mem_setAdd]
    simp only [List.mem_cons]
    tauto

theorem foldl_setAdd_nodup (xs l : List Label) (h : l.Nodup) :
    (xs.foldl setAdd l).Nodup := by
  induction xs generalizing l with
  | nil => exact h
  | cons x rest ih => exact ih _ (setAdd_nodup l x h)

theorem foldl_inner_extend (g : BlockMap) (xs l : List Label) :
    ∃ e, xs.foldl (fun acc k => (successorsIn g k).foldl setAdd acc) l
      = l ++ e := by
  induction xs generalizing l with
  | nil => exact ⟨[], by simp⟩
  | cons x rest ih =>
    obtain ⟨e1, he1⟩ := foldl_setAdd_extend (successorsIn g x) l
    obtain ⟨e2, he2⟩ := ih ((successorsIn g x).foldl setAdd l)
    exact ⟨e1 ++ e2, by rw [List.foldl_cons, he2, he1, List.append_assoc]⟩

theorem mem_foldl_inner (g : BlockMap) (xs l : List Label) (y : Label) :
    y ∈ xs.foldl (fun acc k => (successorsIn g k).foldl setAdd acc) l ↔
      y ∈ l ∨ ∃ b ∈ xs, y ∈ successorsIn g b := by
  induction xs generalizing l with
  | nil => simp
  | cons x rest ih =>
    rw [List.foldl_cons, ih, mem_foldl_setAdd]
    constructor
    · rintro ((h | h) | ⟨b, hb, hyb⟩)
      · exact Or.inl h
      · exact Or.inr ⟨x, by simp, h⟩
      · exact Or.inr ⟨b, by simp [hb], hyb⟩
    · rintro (h | ⟨b, hb, hyb⟩)
      · exact Or.inl (Or.inl h)
      · rcases List.mem_cons.mp hb with hb | hb
        · exact Or.inl (Or.inr (hb ▸ hyb))
        · exact Or.inr ⟨b, hb, hyb⟩

theorem foldl_inner_nodup (g : BlockMap) (xs l : List Label) (h : l.Nodup) :
    (xs.foldl (fun acc k => (successorsIn g k).foldl setAdd acc) l).Nodup := by
  induction xs generalizing l with
  | nil => exact h
  | cons x rest ih => exact ih _ (foldl_setAdd_nodup _ _ h)

theorem reachStep_extend (g : BlockMap) (cur : List Label) :
    ∃ e, reachStep g cur = cur ++ e :=
  foldl_inner_extend g cur cur

theorem mem_reachStep (g : BlockMap) (cur : List Label) (y : Label) :
    y ∈ reachStep g cur ↔ y ∈ cur ∨ ∃ b ∈ cur, y ∈ successorsIn g b :=
  mem_foldl_inner g cur cur y

theorem reachStep_nodup (g : BlockMap) (cur : List Label) (h : cur.Nodup) :
    (reachStep g cur).Nodup :=
  foldl_inner_nodup g cur cur h

theorem successorsIn_sub (g : BlockMap) (b y : Label)
    (h : y ∈ successorsIn g b) : y ∈ dictKeys g := by
  rw [successorsIn] at h
  cases hlk : dictLookup g b with
  | none => rw [hlk] at h; cases h
  | some blk =>
    rw [hlk] at h
    have := List.of_mem_filter h
    simpa using this

theorem reachIter_succ (g : BlockMap) (n : Nat) (k : Label) :
    reachIter g (n + 1) k = reachStep g (reachIter g n k) := rfl

theorem reachIter_add_extend (g : BlockMap) (n m : Nat) (k : Label) :
    ∃ e, reachIter g (n + m) k = reachIter g n k ++ e := by
  induction m with
  | zero => exact ⟨[], by simp⟩
  | succ m ih =>
    obtain ⟨e1, he1⟩ := ih
    obtain ⟨e2, he2⟩ := reachStep_extend g (reachIter g (n + m) k)
    exact ⟨e1 ++ e2, by
      rw [show n + (m + 1) = (n + m) + 1 by omega, reachIter_succ, he2, he1,
        List.append_assoc]⟩

theorem reachIter_mono_mem (g : BlockMap) (i j : Nat) (k x : Label)
    (hij : i ≤ j) (hx : x ∈ reachIter g i k) : x ∈ reachIter g j k := by
  obtain ⟨m, rfl⟩ := Nat.exists_eq_add_of_le hij
  obtain ⟨e, he⟩ := reachIter_add_extend g i m k
  rw [he]
  exact List.mem_append.mpr (Or.inl hx)

theorem reachIter_nodup (g : BlockMap) (n : Nat) (k : Label) :
    (reachIter g n k).Nodup := by
  induction n with
  | zero => exact List.nodup_singleton k
  | succ n ih => exact reachStep_nodup g _ ih

theorem reachIter_sub (g : BlockMap) (n : Nat) (k : Label) :
    ∀ x ∈ reachIter g n k, x ∈ k :: dictKeys g := by
  induction n with
  | zero =>
    intro x hx
    rw [reachIter] at hx
    simp at hx
    simp [hx]
  | succ n ih =>
    intro x hx
    rw [reachIter_succ, mem_reachStep] at hx
    rcases hx with hx | ⟨b, _, hx⟩
    · exact ih x hx
    · exact List.mem_cons_of_mem _ (successorsIn_sub g b x hx)

theorem reachIter_stall (g : BlockMap) (i : Nat) (k : Label)
    (h : reachIter g (i + 1) k = reachIter g i k) :
    ∀ m, reachIter g (i + m) k = reachIter g i k := by
  intro m
  induction m with
  | zero => rfl
  | succ m ih =>
    rw [show i + (m + 1) = (i + m) + 1 by omega, reachIter_succ, ih,
      ← reachIter_succ, h]

theorem reachIter_strict_length (g : BlockMap) (k : Label) (n : Nat)
    (h : ∀ i < n, reachIter g (i + 1) k ≠ reachIter g i k) :
    n + 1 ≤ (reachIter g n k).length := by
  induction n with
  | zero => simp [reachIter]
  | succ n ih =>
    have hlen : n + 1 ≤ (reachIter g n k).length :=
      ih (fun i hi => h i (by omega))
    obtain ⟨e, he⟩ := reachIter_add_extend g n 1 k
    have hne : e ≠ [] := by
      intro hcon
      exact h n (by omega) (by rw [show n + 1 = n + 1 from rfl, he, hcon]; simp)
    have : 1 ≤ e.length := by
      cases e with
      | nil => exact absurd rfl hne
      | cons a l => simp
    rw [show n + 1 = n + 1 from rfl, he, List.length_append]
    omega

theorem reachStep_saturated (g : BlockMap) (cur : List Label)
    (hnd : cur.Nodup) (hkeys : ∀ x ∈ dictKeys g, x ∈ cur) :
    reachStep g cur = cur := by
  obtain ⟨e, he⟩ := reachStep_extend g cur
  cases he2 : e with
  | nil => rw [he, he2, List.append_nil]
  | cons a l =>
    have ha : a ∈ reachStep g cur := by
      rw [he, he2]
      exact List.mem_append.mpr (Or.inr (by simp))
    have ha_cur : a ∈ cur := by
      rcases (mem_reachStep g cur a).mp ha with h | ⟨b, _, hsucc⟩
      · exact h
      · exact hkeys a (successorsIn_sub g b a hsucc)
    have hnd2 : (cur ++ e).Nodup := by
      rw [← he]
      exact reachStep_nodup g cur hnd
    rw [List.nodup_append] at hnd2
    exact (hnd2.2.2 ha_cur (by rw [he2]; simp)).elim

theorem reachSet_fixpoint (g : BlockMap) (k : Label) :
    reachStep g (reachSet g k) = reachSet g k := by
  set n := (dictKeys g).length with hn
  by_cases hstall : ∃ i, i < n ∧ reachIter g (i + 1) k = reachIter g i k
  · obtain ⟨i, hi, heq⟩ := hstall
    have h1 : reachIter g n k = reachIter g i k := by
      have := reachIter_stall g i k heq (n - i)
      rwa [show i + (n - i) = n by omega] at this
    have h2 : reachIter g (n + 1) k = reachIter g i k := by
      have := reachIter_stall g i k heq (n + 1 - i)
      rwa [show i + (n + 1 - i) = n + 1 by omega] at this
    show reachStep g (reachIter g n k) = reachIter g n k
    rw [← reachIter_succ, h1, h2]
  · push_neg at hstall
    have hstrict : ∀ i < n, reachIter g (i + 1) k ≠ reachIter g i k := by
      intro i hi
      exact hstall i hi
    have hlen : n + 1 ≤ (reachIter g n k).length :=
      reachIter_strict_length g k n hstrict
    have hnd := reachIter_nodup g n k
    have hsub := reachIter_sub g n k
    have hkeys : ∀ x ∈ dictKeys g, x ∈ reachIter g n k := by
      intro x hx
      have hsubF : (reachIter g n k).toFinset ⊆ (k :: dictKeys g).toFinset := by
        intro y hy
        rw [List.mem_toFinset] at hy ⊢
        exact hsub y hy
      have hcard1 : (k :: dictKeys g).toFinset.card ≤ n + 1 := by
        calc (k :: dictKeys g).toFinset.card ≤ (k :: dictKeys g).length :=
              (k :: dictKeys g).toFinset_card_le
          _ = n + 1 := by simp [hn]
      have hcard2 : n + 1 ≤ (reachIter g n k).toFinset.card := by
        rw [List.toFinset_card_of_nodup hnd]
        exact hlen
      have hEq : (reachIter g n k).toFinset = (k :: dictKeys g).toFinset :=
        Finset.eq_of_subset_of_card_le hsubF (le_trans hcard1 hcard2)
      have : x ∈ (reachIter g n k).toFinset := by
        rw [hEq, List.mem_toFinset]
        exact List.mem_cons_of_mem _ hx
      rwa [List.mem_toFinset] at this
    exact reachStep_saturated g _ hnd hkeys

/-- The in-map jump-target edge relation. -/
def edgeRel (g : BlockMap) (a b : Label) : Prop := b ∈ successorsIn g a

theorem reach_refl_mem (g : BlockMap) (k : Label) : k ∈ reachSet g k :=
  reachIter_mono_mem g 0 (dictKeys g).length k k (Nat.zero_le _) (by simp [reachIter])

theorem reachSet_closed (g : BlockMap) (k b y : Label)
    (hb : b ∈ reachSet g k) (hy : y ∈ successorsIn g b) : y ∈ reachSet g k := by
  have : y ∈ reachStep g (reachSet g k) :=
    (mem_reachStep g _ y).mpr (Or.inr ⟨b, hb, hy⟩)
  rwa [reachSet_fixpoint] at this

theorem reach_sound (g : BlockMap) (k x : Label) (hx : x ∈ reachSet g k) :
    Relation.ReflTransGen (edgeRel g) k x := by
  rw [reachSet] at hx
  generalize hN : (dictKeys g).length = N at hx
  clear hN
  induction N generalizing x with
  | zero =>
    rw [reachIter] at hx
    simp at hx
    exact hx ▸ Relation.ReflTransGen.refl
  | succ n ih =>
    rw [reachIter_succ, mem_reachStep] at hx
    rcases hx with hx | ⟨b, hb, hsucc⟩
    · exact ih x hx
    · exact Relation.ReflTransGen.tail (ih b hb) hsucc

theorem reach_complete (g : BlockMap) (k x : Label)
    (h : Relation.ReflTransGen (edgeRel g) k x) : x ∈ reachSet g k := by
  induction h with
  | refl => exact reach_refl_mem g k
  | tail _ hedge ih => exact reachSet_closed g k _ _ ih hedge

theorem reach_iff (g : BlockMap) (a b : Label) :
    reach g a b = true ↔ Relation.ReflTransGen (edgeRel g) a b := by
  rw [reach]
  simp only [decide_eq_true_eq]
  exact ⟨reach_sound g a b, reach_complete g a b⟩

theorem reach_refl (g : BlockMap) (a : Label) : reach g a a = true :=
  (reach_iff g a a).mpr Relation.ReflTransGen.refl

theorem reach_trans (g : BlockMap) (a b c : Label)
    (h1 : reach g a b = true) (h2 : reach g b c = true) : reach g a c = true :=
  (reach_iff g a c).mpr
    (Relation.ReflTransGen.trans ((reach_iff g a b).mp h1) ((reach_iff g b c).mp h2))

theorem mem_sccOf_iff (g : BlockMap) (k m : Label) :
    m ∈ sccOf g k ↔
      m ∈ dictKeys g ∧ reach g k m = true ∧ reach g m k = true := by
  rw [sccOf, List.mem_filter]
  simp [Bool.and_eq_true]

theorem mem_sccOf_self (g : BlockMap) (k : Label) (hk : k ∈ dictKeys g) :
    k ∈ sccOf g k :=
  (mem_sccOf_iff g k k).mpr ⟨hk, reach_refl g k, reach_refl g k⟩

theorem sccOf_sub_keys (g : BlockMap) (k : Label) :
    ∀ m ∈ sccOf g k, m ∈ dictKeys g := by
  intro m hm
  exact ((mem_sccOf_iff g k m).mp hm).1

theorem sccOf_class_eq (g : BlockMap) (k m : Label) (hm : m ∈ sccOf g k) :
    sccOf g m = sccOf g k := by
  obtain ⟨hmkeys, hkm, hmk⟩ := (mem_sccOf_iff g k m).mp hm
  rw [sccOf, sccOf]
  refine List.filter_congr (fun x _ => ?_)
  rw [Bool.eq_iff_iff, Bool.and_eq_true, Bool.and_eq_true]
  constructor
  · rintro ⟨h1, h2⟩
    exact ⟨reach_trans g k m x hkm h1, reach_trans g x m k h2 hmk⟩
  · rintro ⟨h1, h2⟩
    exact ⟨reach_trans g m k x hmk h1, reach_trans g x k m h2 hkm⟩

/-- The classes returned by `compute_scc` are mutual-reachability classes
of keys, and pairwise disjoint. -/
theorem compute_scc_spec (g : BlockMap) :
    (∀ s ∈ compute_scc g, ∃ k, k ∈ dictKeys g ∧ s = sccOf g k) ∧
    List.Pairwise (fun s t => ∀ x, x ∈ s → x ∉ t) (compute_scc g) := by
  rw [compute_scc]
  have haux : ∀ (ks : List Label), (∀ k ∈ ks, k ∈ dictKeys g) →
      ∀ (acc : List (List Label)),
      (∀ s ∈ acc, ∃ k, k ∈ dictKeys g ∧ s = sccOf g k) →
      List.Pairwise (fun s t => ∀ x, x ∈ s → x ∉ t) acc →
      (∀ s ∈ (ks.foldl (fun acc k =>
          if acc.any (fun s => k ∈ s) then acc else acc ++ [sccOf g k]) acc),
        ∃ k, k ∈ dictKeys g ∧ s = sccOf g k) ∧
      List.Pairwise (fun s t => ∀ x, x ∈ s → x ∉ t)
        (ks.foldl (fun acc k =>
          if acc.any (fun s => k ∈ s) then acc else acc ++ [sccOf g k]) acc) := by
    intro ks
    induction ks with
    | nil => intro _ acc h1 h2; exact ⟨h1, h2⟩
    | cons k rest ih =>
      intro hks acc h1 h2
      rw [List.foldl_cons]
      by_cases hguard : acc.any (fun s => k ∈ s) = true
      · rw [if_pos hguard]
        exact ih (fun x hx => hks x (List.mem_cons_of_mem _ hx)) acc h1 h2
      · rw [if_neg hguard]
        have hknotin : ∀ s ∈ acc, k ∉ s := by
          intro s hs hk
          exact hguard (List.any_eq_true.mpr ⟨s, hs, by simpa using hk⟩)
        refine ih (fun x hx => hks x (List.mem_cons_of_mem _ hx))
          (acc ++ [sccOf g k]) ?_ ?_
        · intro s hs
          rcases List.mem_append.mp hs with hs | hs
          · exact h1 s hs
          · simp only [List.mem_singleton] at hs
            exact ⟨k, hks k (by simp), hs⟩
        · rw [List.pairwise_append]
          refine ⟨h2, List.pairwise_singleton _ _, ?_⟩
          intro s hs t ht x hxs hxt
          simp only [List.mem_singleton] at ht
          subst ht
          obtain ⟨k0, hk0keys, hs0⟩ := h1 s hs
          have hclass1 : sccOf g x = sccOf g k0 :=
            sccOf_class_eq g k0 x (hs0 ▸ hxs)
          have hclass2 : sccOf g x = sccOf g k :=
            sccOf_class_eq g k x hxt
          have : k ∈ s := by
            rw [hs0, ← hclass1, hclass2]
            exact mem_sccOf_self g k (hks k (by simp))
          exact hknotin s hs this
  exact haux (dictKeys g) (fun k hk => hk) [] (by simp) (by simp)

/-- Some outside node of the map jumps to `h`, a member of `L`. -/
def isHeaderOf (g : BlockMap) (L : List Label) (h : Label) : Prop :=
  ∃ e, e ∈ dictKeys g ∧ e ∉ L ∧ h ∈ targetsOf g e ∧ h ∈ L

theorem fhe_step_fst (g : BlockMap) (L : List Label)
    (st : List Label × List Label) (node : Label) :
    (fhe_step g L st node).1 =
      ((targetsOf g node).filter (fun t => t ∈ L)).foldl setAdd st.1 := by
  rw [fhe_step]
  by_cases h : ((targetsOf g node).filter (fun t => t ∈ L)).isEmpty <;>
    simp [h]

theorem fhe_fold_fst_mem (g : BlockMap) (L : List Label) (ns : List Label) :
    ∀ (st : List Label × List Label) (h : Label),
      h ∈ (ns.foldl (fhe_step g L) st).1 ↔
        h ∈ st.1 ∨ ∃ node ∈ ns, h ∈ (targetsOf g node).filter (fun t => t ∈ L) := by
  induction ns with
  | nil => intro st h; simp
  | cons node rest ih =>
    intro st h
    rw [List.foldl_cons, ih, fhe_step_fst, mem_foldl_setAdd]
    constructor
    · rintro ((h1 | h1) | ⟨n2, hn2, h2⟩)
      · exact Or.inl h1
      · exact Or.inr ⟨node, by simp, h1⟩
      · exact Or.inr ⟨n2, by simp [hn2], h2⟩
    · rintro (h1 | ⟨n2, hn2, h2⟩)
      · exact Or.inl (Or.inl h1)
      · rcases List.mem_cons.mp hn2 with hn2 | hn2
        · exact Or.inl (Or.inr (hn2 ▸ h2))
        · exact Or.inr ⟨n2, hn2, h2⟩

theorem fhe_fold_fst_nodup (g : BlockMap) (L : List Label) (ns : List Label) :
    ∀ (st : List Label × List Label), st.1.Nodup →
      ((ns.foldl (fhe_step g L) st).1).Nodup := by
  induction ns with
  | nil => intro st h; exact h
  | cons node rest ih =>
    intro st h
    rw [List.foldl_cons]
    refine ih _ ?_
    rw [fhe_step_fst]
    exact foldl_setAdd_nodup _ _ h

theorem mem_fhe_headers (g : BlockMap) (L : List Label) (h : Label) :
    h ∈ (find_headers_and_entries g L).1 ↔ isHeaderOf g L h := by
  rw [find_headers_and_entries, fhe_fold_fst_mem]
  simp only [List.not_mem_nil, false_or]
  constructor
  · rintro ⟨node, hnode, hmem⟩
    rw [List.mem_filter] at hmem
    rw [exclude_nodes, List.mem_filter] at hnode
    exact ⟨node, hnode.1, by simpa using hnode.2, hmem.1, by simpa using hmem.2⟩
  · rintro ⟨e, hkeys, hnotL, htgt, hL⟩
    refine ⟨e, ?_, ?_⟩
    · rw [exclude_nodes, List.mem_filter]
      exact ⟨hkeys, by simpa using hnotL⟩
    · rw [List.mem_filter]
      exact ⟨htgt, by simpa using hL⟩

theorem fhe_headers_nodup (g : BlockMap) (L : List Label) :
    (find_headers_and_entries g L).1.Nodup :=
  fhe_fold_fst_nodup g L _ _ (List.nodup_nil)

theorem two_distinct_of_length (lst : List Label) (hnd : lst.Nodup)
    (hlen : 2 ≤ lst.length) :
    ∃ h1 h2, h1 ≠ h2 ∧ h1 ∈ lst ∧ h2 ∈ lst := by
  cases lst with
  | nil => simp at hlen
  | cons a rest =>
    cases rest with
    | nil => simp at hlen
    | cons b rest2 =>
      refine ⟨a, b, ?_, by simp, by simp⟩
      intro hab
      rw [List.nodup_cons] at hnd
      exact hnd.1 (hab ▸ (by simp : b ∈ b :: rest2))

theorem length_of_two_distinct (lst : List Label) (h1 h2 : Label)
    (hne : h1 ≠ h2) (hm1 : h1 ∈ lst) (hm2 : h2 ∈ lst) : 2 ≤ lst.length := by
  cases lst with
  | nil => simp at hm1
  | cons a rest =>
    cases rest with
    | nil =>
      simp only [List.mem_singleton] at hm1 hm2
      exact absurd (hm1.trans hm2.symm) hne
    | cons b rest2 => simp

/-- Key/field coherence: every stored block's `begin` is its key. -/
def wfP (g : BlockMap) : Prop := ∀ p ∈ g, (p.2).bbegin = p.1

/-- Counter freshness: every synthetic label used as a key is below the
counter. -/
def freshP (g : BlockMap) (c : Nat) : Prop :=
  ∀ i, Label.ControlLabel i ∈ dictKeys g → i < c

theorem mem_keys_dictSet {α : Type} (g : List (Label × α)) (k : Label)
    (v : α) (x : Label) :
    x ∈ dictKeys (dictSet g k v) ↔ x ∈ dictKeys g ∨ x = k := by
  rw [dictSet]
  by_cases h : k ∈ dictKeys g
  · rw [if_pos h]
    have : dictKeys (g.map (fun p => if p.1 = k then (k, v) else p)) =
        dictKeys g := by
      rw [dictKeys, dictKeys, List.map_map]
      refine List.map_congr_left ?_
      intro p _
      by_cases hp : p.1 = k <;> simp [hp]
    rw [this]
    constructor
    · exact Or.inl
    · rintro (hx | hx)
      · exact hx
      · exact hx ▸ h
  · rw [if_neg h, dictKeys_append]
    simp [dictKeys]

theorem mem_keys_dictPop {α : Type} (g : List (Label × α)) (k x : Label)
    (h : x ∈ dictKeys (dictPop g k)) : x ∈ dictKeys g := by
  rw [dictKeys_dictPop] at h
  exact List.mem_of_mem_filter h

theorem mem_keys_of_lookup {α : Type} (g : List (Label × α)) (q : Label)
    (v : α) (h : dictLookup g q = some v) : q ∈ dictKeys g := by
  by_contra hc
  rw [(dictLookup_eq_none_iff g q).mpr hc] at h
  cases h

theorem wfP_dictSet (g : BlockMap) (k : Label) (v : BasicBlock)
    (hwf : wfP g) (hv : v.bbegin = k) : wfP (dictSet g k v) := by
  intro p hp
  rw [dictSet] at hp
  by_cases h : k ∈ dictKeys g
  · rw [if_pos h] at hp
    obtain ⟨p0, hp0, hpe⟩ := List.mem_map.mp hp
    by_cases hp1 : p0.1 = k
    · rw [if_pos hp1] at hpe
      rw [← hpe]
      exact hv
    · rw [if_neg hp1] at hpe
      exact hpe ▸ hwf p0 hp0
  · rw [if_neg h] at hp
    rcases List.mem_append.mp hp with hp | hp
    · exact hwf p hp
    · simp only [List.mem_singleton] at hp
      exact hp ▸ hv

theorem wfP_dictPop (g : BlockMap) (k : Label) (hwf : wfP g) :
    wfP (dictPop g k) := by
  intro p hp
  exact hwf p (List.mem_of_mem_filter hp)

theorem wfP_add_node (g : BlockMap) (b : BasicBlock) (hwf : wfP g) :
    wfP (add_node g b) :=
  wfP_dictSet g b.bbegin b hwf rfl

/-- Modelled from the spec: the exit-selection step of the strict loop
restructurer, raising on the single-post-exit/multiple-pre-exit case the
source leaves to a never-raised `Exception`. -/
def select_exits_strict (loop : List Label) (g : BlockMap) (c : Nat) :
    Except PyErr (List Label × BlockMap × Label × Label × Nat) :=
  if (find_exits loop g).2.length ≠ 1 then
    .ok (join_exits loop g (find_exits loop g).2 c)
  else if (find_exits loop g).1.length ≠ 1 then .error .runtimeError
  else
    match (find_exits loop g).1, (find_exits loop g).2 with
    | preE :: _, postE :: _ => .ok (loop, g, preE, postE, c)
    | _, _ => .error .stopIterIndex

/-- Modelled from the spec: the loop restructurer with the
`Exception("unreachable?")` case raising immediately, as sections 7 and 9
of the design prescribe for the single-post-exit/multiple-pre-exit
invariant violation.  Identical to `process_loops` otherwise; compared
against the implemented fall-through behaviour. -/
def process_one_loop_strict (rec : BlockMap → Nat → Except PyErr (BlockMap × Nat))
    (st : LoopState) (loop : List Label) : Except PyErr LoopState :=
  let headers := (find_headers_and_entries st.graph loop).1
  match select_exits_strict loop st.graph st.counter with
  | .error e => .error e
  | .ok (loop1, g1, pre, post, c1) =>
    let insiders := loop1.filterMap (fun k => dictLookup g1 k)
    if insiders.length ≠ loop1.length then .error .keyError
    else
      let g2 := loop1.foldl dictPop g1
      match headers with
      | [loop_head] =>
        match insiders.foldlM (fun acc node =>
            if node.bbegin ∈ headers then pure acc
            else (node.replace_backedge loop_head).map
              (fun nb => dictSet acc node.bbegin nb)) ([] : BlockMap) with
        | .error e => .error e
        | .ok _loop_body =>
          match next_inst_offset loop_head with
          | .error e => .error e
          | .ok rend =>
            match rec _loop_body c1 with
            | .error e => .error e
            | .ok sc =>
              let hdrs := insiders.filterMap (fun node =>
                  if node.bbegin ∈ headers then some (node.bbegin, node) else none)
              let blk : BasicBlock := .region loop_head rend false [post] []
                  .loop (.hmap hdrs) sc.1 (some pre)
              .ok ⟨dictSet g2 loop_head blk, sc.2, some (pre, post)⟩
      | _ => .error .assertionError

/-- Modelled from the spec: `process_loops` with the strict unreachable
case. -/
def process_loops_strict (rec : BlockMap → Nat → Except PyErr (BlockMap × Nat)) :
    List (List Label) → LoopState → Except PyErr LoopState
  | [], st => .ok st
  | loop :: rest, st =>
    match process_one_loop_strict rec st loop with
    | .error e => .error e
    | .ok st2 => process_loops_strict rec rest st2

/-- Modelled from the spec: `restructure_loop` with the strict unreachable
case. -/
def restructure_loop_strict (fuel : Nat) :
    BlockMap → Nat → Except PyErr (BlockMap × Nat) :=
  Nat.rec (motive := fun _ => BlockMap → Nat → Except PyErr (BlockMap × Nat))
    (fun _ _ => .error .fuelOut)
    (fun _ ih g c =>
      let loops := (compute_scc g).filter (fun s => s.length > 1)
      (process_loops_strict ih loops ⟨g, c, none⟩).map
        (fun st => (st.graph, st.counter)))
    fuel

theorem fe_inner_fold_snd (loop : List Label) (inside : Label)
    (jts : List Label) :
    ∀ pe : List Label × List Label,
      (jts.foldl (fe_inner loop inside) pe).2 =
        (jts.filter (fun t => t ∉ loop)).foldl setAdd pe.2 := by
  induction jts with
  | nil => intro pe; rfl
  | cons jt rest ih =>
    intro pe
    rw [List.foldl_cons, ih, List.filter_cons]
    by_cases h : jt ∈ loop
    · simp only [fe_inner, if_pos h, h]
      simp
    · simp only [fe_inner, if_neg h, h]
      simp

theorem fe_step_snd (loop : List Label) (g : BlockMap)
    (pe : List Label × List Label) (inside : Label) :
    (fe_step loop g pe inside).2 =
      ((targetsOf g inside).filter (fun t => t ∉ loop)).foldl setAdd pe.2 := by
  rw [fe_step, targetsOf]
  cases hlk : dictLookup g inside with
  | none => simp
  | some b =>
    simp only []
    rw [← fe_inner_fold_snd loop inside b.jump_targets pe]
    by_cases h : b.is_exiting <;> simp [h]

theorem fe_fold_snd_mem (loop : List Label) (g : BlockMap)
    (ls : List Label) :
    ∀ (pe : List Label × List Label) (x : Label),
      x ∈ (ls.foldl (fe_step loop g) pe).2 ↔
        x ∈ pe.2 ∨ ∃ inside ∈ ls, x ∈ targetsOf g inside ∧ x ∉ loop := by
  induction ls with
  | nil => intro pe x; simp
  | cons inside rest ih =>
    intro pe x
    rw [List.foldl_cons, ih]
    constructor
    · rintro (h | ⟨i2, hi2, h2⟩)
      · rw [fe_step_snd, mem_foldl_setAdd] at h
        rcases h with h | h
        · exact Or.inl h
        · rw [List.mem_filter] at h
          exact Or.inr ⟨inside, by simp, h.1, by simpa using h.2⟩
      · exact Or.inr ⟨i2, by simp [hi2], h2⟩
    · rintro (h | ⟨i2, hi2, h2⟩)
      · refine Or.inl ?_
        rw [fe_step_snd, mem_foldl_setAdd]
        exact Or.inl h
      · rcases List.mem_cons.mp hi2 with hi2 | hi2
        · refine Or.inl ?_
          rw [fe_step_snd, mem_foldl_setAdd]
          refine Or.inr ?_
          rw [List.mem_filter]
          exact ⟨hi2 ▸ h2.1, by simpa using h2.2⟩
        · exact Or.inr ⟨i2, hi2, h2⟩

theorem mem_find_exits_snd (loop : List Label) (g : BlockMap) (x : Label) :
    x ∈ (find_exits loop g).2 ↔
      ∃ inside ∈ loop, x ∈ targetsOf g inside ∧ x ∉ loop := by
  rw [find_exits, fe_fold_snd_mem]
  simp

theorem je_rewire_wf (pre en : Label) (gacc : BlockMap) (ln : Label)
    (hwf : wfP gacc) : wfP (je_rewire pre en gacc ln) := by
  rw [je_rewire]
  by_cases h1 : ln = pre
  · rw [if_pos h1]; exact hwf
  · rw [if_neg h1]
    cases hlk : dictLookup gacc ln with
    | none => exact hwf
    | some b =>
      simp only []
      by_cases h2 : en ∈ b.jump_targets
      · rw [if_pos h2]
        have hb : b.bbegin = ln := hwf (ln, b) (dictLookup_mem gacc ln b hlk)
        refine wfP_dictSet _ _ _ (wfP_dictPop _ _ hwf) ?_
        rw [replace_jump_targets_bbegin, hb]
      · rw [if_neg h2]; exact hwf

theorem je_rewire_keys (pre en : Label) (gacc : BlockMap) (ln x : Label)
    (hwf : wfP gacc) (hx : x ∈ dictKeys (je_rewire pre en gacc ln)) :
    x ∈ dictKeys gacc := by
  rw [je_rewire] at hx
  by_cases h1 : ln = pre
  · rw [if_pos h1] at hx; exact hx
  · rw [if_neg h1] at hx
    cases hlk : dictLookup gacc ln with
    | none => rw [hlk] at hx; exact hx
    | some b =>
      rw [hlk] at hx
      simp only [] at hx
      by_cases h2 : en ∈ b.jump_targets
      · rw [if_pos h2] at hx
        have hb : b.bbegin = ln := hwf (ln, b) (dictLookup_mem gacc ln b hlk)
        rw [add_node, replace_jump_targets_bbegin, hb] at hx
        rcases (mem_keys_dictSet _ _ _ _).mp hx with hx | hx
        · exact mem_keys_dictPop _ _ _ hx
        · exact hx ▸ mem_keys_of_lookup gacc ln b hlk
      · rw [if_neg h2] at hx; exact hx

theorem je_rewire_lookup (pre en : Label) (gacc : BlockMap) (ln q : Label)
    (hwf : wfP gacc) (hq : q ≠ ln) :
    dictLookup (je_rewire pre en gacc ln) q = dictLookup gacc q := by
  rw [je_rewire]
  by_cases h1 : ln = pre
  · rw [if_pos h1]
  · rw [if_neg h1]
    cases hlk : dictLookup gacc ln with
    | none => rfl
    | some b =>
      simp only []
      by_cases h2 : en ∈ b.jump_targets
      · rw [if_pos h2]
        have hb : b.bbegin = ln := hwf (ln, b) (dictLookup_mem gacc ln b hlk)
        rw [add_node, replace_jump_targets_bbegin, hb,
          dictLookup_dictSet_ne _ _ _ _ hq, dictLookup_dictPop_ne _ _ _ hq]
      · rw [if_neg h2]

theorem je_rewire_fold_props (pre en : Label) (loop1 : List Label) :
    ∀ (gacc : BlockMap), wfP gacc →
      wfP (loop1.foldl (je_rewire pre en) gacc) ∧
      (∀ x, x ∈ dictKeys (loop1.foldl (je_rewire pre en) gacc) →
        x ∈ dictKeys gacc) ∧
      (∀ q, q ∉ loop1 →
        dictLookup (loop1.foldl (je_rewire pre en) gacc) q =
          dictLookup gacc q) := by
  induction loop1 with
  | nil => intro gacc hwf; exact ⟨hwf, fun x hx => hx, fun q _ => rfl⟩
  | cons ln rest ih =>
    intro gacc hwf
    rw [List.foldl_cons]
    obtain ⟨ih1, ih2, ih3⟩ := ih (je_rewire pre en gacc ln)
      (je_rewire_wf pre en gacc ln hwf)
    refine ⟨ih1, ?_, ?_⟩
    · intro x hx
      exact je_rewire_keys pre en gacc ln x hwf (ih2 x hx)
    · intro q hq
      have hq_rest : q ∉ rest := fun hc => hq (List.mem_cons_of_mem _ hc)
      have hq_ln : q ≠ ln := fun hc => hq (hc ▸ List.mem_cons_self _ _)
      rw [ih3 q hq_rest, je_rewire_lookup pre en gacc ln q hwf hq_ln]

theorem je_outer_fold_props (pre : Label) (loop1 : List Label)
    (exits : List Label) :
    ∀ (gacc : BlockMap), wfP gacc →
      wfP (exits.foldl (fun ga en => loop1.foldl (je_rewire pre en) ga) gacc) ∧
      (∀ x, x ∈ dictKeys
          (exits.foldl (fun ga en => loop1.foldl (je_rewire pre en) ga) gacc) →
        x ∈ dictKeys gacc) ∧
      (∀ q, q ∉ loop1 →
        dictLookup
          (exits.foldl (fun ga en => loop1.foldl (je_rewire pre en) ga) gacc) q =
          dictLookup gacc q) := by
  induction exits with
  | nil => intro gacc hwf; exact ⟨hwf, fun x hx => hx, fun q _ => rfl⟩
  | cons en rest ih =>
    intro gacc hwf
    rw [List.foldl_cons]
    obtain ⟨j1, j2, j3⟩ := je_rewire_fold_props pre en loop1 gacc hwf
    obtain ⟨ih1, ih2, ih3⟩ := ih (loop1.foldl (je_rewire pre en) gacc) j1
    refine ⟨ih1, fun x hx => j2 x (ih2 x hx), fun q hq => ?_⟩
    rw [ih3 q hq, j3 q hq]

theorem foldl_dictPop_lookup (ls : List Label) :
    ∀ (g : BlockMap) (q : Label), q ∉ ls →
      dictLookup (ls.foldl dictPop g) q = dictLookup g q := by
  induction ls with
  | nil => intro g q _; rfl
  | cons l rest ih =>
    intro g q hq
    rw [List.foldl_cons, ih _ _ (fun hc => hq (List.mem_cons_of_mem _ hc)),
      dictLookup_dictPop_ne _ _ _
        (fun hc => hq (by rw [hc]; exact List.mem_cons_self _ _))]

theorem foldl_dictPop_wf (ls : List Label) :
    ∀ (g : BlockMap), wfP g → wfP (ls.foldl dictPop g) := by
  induction ls with
  | nil => intro g h; exact h
  | cons l rest ih =>
    intro g h
    exact ih _ (wfP_dictPop g l h)

theorem foldl_dictPop_keys (ls : List Label) :
    ∀ (g : BlockMap) (x : Label), x ∈ dictKeys (ls.foldl dictPop g) →
      x ∈ dictKeys g := by
  induction ls with
  | nil => intro g x h; exact h
  | cons l rest ih =>
    intro g x h
    exact mem_keys_dictPop _ _ _ (ih _ _ h)

theorem join_exits_props (loop : List Label) (g : BlockMap)
    (exits : List Label) (c : Nat) (hwf : wfP g) :
    (join_exits loop g exits c).1 = setAdd loop (Label.ControlLabel c) ∧
    (join_exits loop g exits c).2.2.1 = Label.ControlLabel c ∧
    (join_exits loop g exits c).2.2.2.1 = Label.ControlLabel (c + 1) ∧
    (join_exits loop g exits c).2.2.2.2 = c + 4 ∧
    wfP (join_exits loop g exits c).2.1 ∧
    (∀ x, x ∈ dictKeys (join_exits loop g exits c).2.1 →
      x ∈ dictKeys g ∨ x = Label.ControlLabel c ∨ x = Label.ControlLabel (c + 1)) ∧
    (∀ q, q ∉ loop → q ≠ Label.ControlLabel c → q ≠ Label.ControlLabel (c + 1) →
      dictLookup (join_exits loop g exits c).2.1 q = dictLookup g q) ∧
    (Label.ControlLabel (c + 1) ∉ loop →
      dictLookup (join_exits loop g exits c).2.1 (Label.ControlLabel (c + 1)) =
        some (.basic (Label.ControlLabel (c + 1)) (.ControlLabel (c + 2))
          false exits [])) := by
  have hg1wf : wfP (add_node (add_node g
      (.basic (Label.ControlLabel c) (.ControlLabel (c + 3)) false
        [Label.ControlLabel (c + 1)] []))
      (.basic (Label.ControlLabel (c + 1)) (.ControlLabel (c + 2)) false
        exits [])) :=
    wfP_add_node _ _ (wfP_add_node _ _ hwf)
  obtain ⟨f1, f2, f3⟩ := je_outer_fold_props (Label.ControlLabel c)
    (setAdd loop (Label.ControlLabel c)) exits _ hg1wf
  refine ⟨rfl, rfl, rfl, rfl, f1, ?_, ?_, ?_⟩
  · intro x hx
    have hx1 := f2 x hx
    rw [add_node, add_node] at hx1
    rcases (mem_keys_dictSet _ _ _ _).mp hx1 with hx1 | hx1
    · rcases (mem_keys_dictSet _ _ _ _).mp hx1 with hx1 | hx1
      · exact Or.inl hx1
      · exact Or.inr (Or.inl hx1)
    · exact Or.inr (Or.inr hx1)
  · intro q hqloop hqc hqc1
    have hq1 : q ∉ setAdd loop (Label.ControlLabel c) := by
      rw [mem_setAdd]
      rintro (h | h)
      · exact hqloop h
      · exact hqc h
    refine (f3 q hq1).trans ?_
    simp only [add_node, BasicBlock.bbegin]
    rw [dictLookup_dictSet_ne _ _ _ _ hqc1,
      dictLookup_dictSet_ne _ _ _ _ hqc]
  · intro hpostloop
    have hq1 : Label.ControlLabel (c + 1) ∉ setAdd loop (Label.ControlLabel c) := by
      rw [mem_setAdd]
      rintro (h | h)
      · exact hpostloop h
      · simp at h
    refine (f3 _ hq1).trans ?_
    simp only [add_node, BasicBlock.bbegin]
    exact dictLookup_dictSet_self _ _ _

theorem restructure_loop_strict_zero (g : BlockMap) (c : Nat) :
    restructure_loop_strict 0 g c = .error .fuelOut := rfl

theorem restructure_loop_strict_succ (f : Nat) (g : BlockMap) (c : Nat) :
    restructure_loop_strict (f + 1) g c =
      (process_loops_strict (restructure_loop_strict f)
        ((compute_scc g).filter (fun s => s.length > 1))
        ⟨g, c, none⟩).map (fun st => (st.graph, st.counter)) := rfl

theorem process_one_strict_err_of_two_headers
    (rec : BlockMap → Nat → Except PyErr (BlockMap × Nat))
    (st : LoopState) (L : List Label)
    (hlen : 2 ≤ (find_headers_and_entries st.graph L).1.length) :
    ∃ e, process_one_loop_strict rec st L = .error e := by
  rw [process_one_loop_strict]
  simp only []
  split
  · rename_i e _
    exact ⟨e, rfl⟩
  · split
    · exact ⟨.keyError, rfl⟩
    · split
      · rename_i heq
        rw [heq] at hlen
        simp at hlen
      · exact ⟨.assertionError, rfl⟩

theorem filterMap_length_all {α β : Type} (f : α → Option β) :
    ∀ (l : List α), (l.filterMap f).length = l.length →
      ∀ x ∈ l, ∃ b, f x = some b := by
  intro l
  induction l with
  | nil => intro _ x hx; cases hx
  | cons a t ih =>
    intro hlen x hx
    rw [List.filterMap_cons] at hlen
    cases hfa : f a with
    | none =>
      rw [hfa] at hlen
      have hle := List.length_filterMap_le f t
      simp only [List.length_cons] at hlen
      omega
    | some b =>
      rw [hfa] at hlen
      simp only [List.length_cons, Nat.add_right_cancel_iff] at hlen
      rcases List.mem_cons.mp hx with hx | hx
      · exact ⟨b, hx ▸ hfa⟩
      · exact ih hlen x hx

theorem join_exits_counter (loop : List Label) (g : BlockMap)
    (exits : List Label) (c : Nat) :
    (join_exits loop g exits c).2.2.2.2 = c + 4 := rfl

theorem select_exits_strict_ok (loop : List Label) (g : BlockMap) (c : Nat)
    (loop1 : List Label) (g1 : BlockMap) (pre post : Label) (c1 : Nat)
    (hok : select_exits_strict loop g c = .ok (loop1, g1, pre, post, c1)) :
    ((loop1, g1, pre, post, c1) = join_exits loop g (find_exits loop g).2 c ∧
      (find_exits loop g).2.length ≠ 1) ∨
    (loop1 = loop ∧ g1 = g ∧ c1 = c ∧ (find_exits loop g).2 = [post]) := by
  rw [select_exits_strict] at hok
  by_cases h2 : (find_exits loop g).2.length ≠ 1
  · rw [if_pos h2] at hok
    injection hok with h
    exact Or.inl ⟨h.symm, h2⟩
  · rw [if_neg h2] at hok
    by_cases h1 : (find_exits loop g).1.length ≠ 1
    · rw [if_pos h1] at hok
      cases hok
    · rw [if_neg h1] at hok
      obtain ⟨postE, hpe2⟩ := List.length_eq_one.mp (not_not.mp h2)
      obtain ⟨preE, hpe1⟩ := List.length_eq_one.mp (not_not.mp h1)
      rw [hpe1, hpe2] at hok
      simp only [] at hok
      injection hok with h
      obtain ⟨ha, hb, hc, hd, he⟩ :
          loop = loop1 ∧ g = g1 ∧ preE = pre ∧ postE = post ∧ c = c1 := by
        have h1e := congrArg (fun t :
            List Label × BlockMap × Label × Label × Nat => t.1) h
        have h2e := congrArg (fun t :
            List Label × BlockMap × Label × Label × Nat => t.2.1) h
        have h3e := congrArg (fun t :
            List Label × BlockMap × Label × Label × Nat => t.2.2.1) h
        have h4e := congrArg (fun t :
            List Label × BlockMap × Label × Label × Nat => t.2.2.2.1) h
        have h5e := congrArg (fun t :
            List Label × BlockMap × Label × Label × Nat => t.2.2.2.2) h
        exact ⟨h1e, h2e, h3e, h4e, h5e⟩
      exact Or.inr ⟨ha.symm, hb.symm, he.symm, hd ▸ hpe2⟩

theorem process_one_loop_strict_ok_spec
    (rec : BlockMap → Nat → Except PyErr (BlockMap × Nat))
    (st : LoopState) (M : List Label) (st2 : LoopState)
    (hok : process_one_loop_strict rec st M = .ok st2) :
    ∃ loop1 g1 pre post c1 loop_head rend sc lb,
      select_exits_strict M st.graph st.counter =
        .ok (loop1, g1, pre, post, c1) ∧
      (loop1.filterMap (fun k => dictLookup g1 k)).length = loop1.length ∧
      (find_headers_and_entries st.graph M).1 = [loop_head] ∧
      next_inst_offset loop_head = .ok rend ∧
      rec lb c1 = .ok sc ∧
      st2 = ⟨dictSet (loop1.foldl dictPop g1) loop_head
        (.region loop_head rend false [post] [] .loop
          (.hmap ((loop1.filterMap (fun k => dictLookup g1 k)).filterMap
            (fun node =>
              if node.bbegin ∈ (find_headers_and_entries st.graph M).1
              then some (node.bbegin, node) else none)))
          sc.1 (some pre)),
        sc.2, some (pre, post)⟩ := by
  rw [process_one_loop_strict] at hok
  simp only [] at hok
  split at hok
  · cases hok
  · rename_i loop1 g1 pre post c1 heqsel
    split at hok
    · cases hok
    · rename_i hinslen
      split at hok
      · rename_i loop_head heqh
        split at hok
        · cases hok
        · rename_i lb heqlb
          split at hok
          · cases hok
          · rename_i rend heqnio
            split at hok
            · cases hok
            · rename_i sc heqrec
              refine ⟨loop1, g1, pre, post, c1, loop_head, rend, sc, lb,
                heqsel, not_not.mp hinslen, heqh, heqnio, heqrec, ?_⟩
              cases hok
              rfl
      · cases hok

theorem process_one_loop_strict_mono
    (rec : BlockMap → Nat → Except PyErr (BlockMap × Nat))
    (hrec : ∀ g c g2 c2, rec g c = .ok (g2, c2) → c ≤ c2)
    (st : LoopState) (M : List Label) (st2 : LoopState)
    (hok : process_one_loop_strict rec st M = .ok st2) :
    st.counter ≤ st2.counter := by
  obtain ⟨loop1, g1, pre, post, c1, loop_head, rend, sc, lb, hsel, _, _, _,
    hrecok, hst2⟩ := process_one_loop_strict_ok_spec rec st M st2 hok
  have hmid : c1 ≤ sc.2 := hrec lb c1 sc.1 sc.2 (by rw [← hrecok])
  have hfst : st.counter ≤ c1 := by
    rcases select_exits_strict_ok M st.graph st.counter loop1 g1 pre post c1
        hsel with ⟨htup, _⟩ | ⟨_, _, hc1, _⟩
    · have hc := congrArg (fun t :
          List Label × BlockMap × Label × Label × Nat => t.2.2.2.2) htup
      simp only [join_exits_counter] at hc
      omega
    · omega
  rw [hst2]
  exact Nat.le_trans hfst hmid

theorem process_loops_strict_mono
    (rec : BlockMap → Nat → Except PyErr (BlockMap × Nat))
    (hrec : ∀ g c g2 c2, rec g c = .ok (g2, c2) → c ≤ c2) :
    ∀ (loops : List (List Label)) (st st2 : LoopState),
      process_loops_strict rec loops st = .ok st2 →
      st.counter ≤ st2.counter := by
  intro loops
  induction loops with
  | nil =>
    intro st st2 hok
    simp only [process_loops_strict] at hok
    cases hok
    exact Nat.le_refl _
  | cons M rest ih =>
    intro st st2 hok
    simp only [process_loops_strict] at hok
    split at hok
    · cases hok
    · rename_i stm heqm
      exact Nat.le_trans (process_one_loop_strict_mono rec hrec st M stm heqm)
        (ih stm st2 hok)

theorem restructure_loop_strict_mono :
    ∀ (fuel : Nat) (g : BlockMap) (c : Nat) (g2 : BlockMap) (c2 : Nat),
      restructure_loop_strict fuel g c = .ok (g2, c2) → c ≤ c2 := by
  intro fuel
  induction fuel with
  | zero =>
    intro g c g2 c2 hok
    rw [restructure_loop_strict_zero] at hok
    cases hok
  | succ f ih =>
    intro g c g2 c2 hok
    rw [restructure_loop_strict_succ] at hok
    cases hst : process_loops_strict (restructure_loop_strict f)
        ((compute_scc g).filter (fun s => s.length > 1)) ⟨g, c, none⟩ with
    | error e => rw [hst] at hok; cases hok
    | ok st2 =>
      rw [hst] at hok
      cases hok
      exact process_loops_strict_mono (restructure_loop_strict f) ih _ _ _ hst

theorem process_one_strict_preserve
    (rec : BlockMap → Nat → Except PyErr (BlockMap × Nat))
    (hrec : ∀ g c g2 c2, rec g c = .ok (g2, c2) → c ≤ c2)
    (st st2 : LoopState) (M L : List Label) (h : Label)
    (hdisj : ∀ x, x ∈ M → x ∉ L)
    (hwf : wfP st.graph) (hfr : freshP st.graph st.counter)
    (hLc : ∀ i, Label.ControlLabel i ∈ L → i < st.counter)
    (hMc : ∀ i, Label.ControlLabel i ∈ M → i < st.counter)
    (hh : isHeaderOf st.graph L h)
    (hok : process_one_loop_strict rec st M = .ok st2) :
    wfP st2.graph ∧ freshP st2.graph st2.counter ∧
      st.counter ≤ st2.counter ∧ isHeaderOf st2.graph L h := by
  obtain ⟨loop1, g1, pre, post, c1, loop_head, rend, sc, lb, hsel, hins,
    hheads, hnio, hrecok, hst2⟩ :=
    process_one_loop_strict_ok_spec rec st M st2 hok
  have hcmono : c1 ≤ sc.2 := hrec lb c1 sc.1 sc.2 (by rw [← hrecok])
  have hlh_M : loop_head ∈ M := by
    have hmem : loop_head ∈ (find_headers_and_entries st.graph M).1 := by
      rw [hheads]
      exact List.mem_singleton.mpr rfl
    obtain ⟨e0, _, _, _, hlhM⟩ := (mem_fhe_headers st.graph M loop_head).mp hmem
    exact hlhM
  obtain ⟨e, hek, heL, het, hhL⟩ := hh
  have hhM : h ∉ M := fun hc => (hdisj h hc) hhL
  subst hst2
  rcases select_exits_strict_ok M st.graph st.counter loop1 g1 pre post c1
      hsel with ⟨htup, _⟩ | ⟨hl1, hg1e, hc1, hpost2⟩
  · -- multiple (or zero) post-exits: join_exits synthesizes the exit pair
    obtain ⟨e1, e2, e3, e4, ewf, ekeys, elook, epost⟩ :=
      join_exits_props M st.graph (find_exits M st.graph).2 st.counter hwf
    have hloop1 : loop1 = setAdd M (Label.ControlLabel st.counter) :=
      (congrArg (fun t : List Label × BlockMap × Label × Label × Nat =>
        t.1) htup).trans e1
    have hpre : pre = Label.ControlLabel st.counter :=
      (congrArg (fun t : List Label × BlockMap × Label × Label × Nat =>
        t.2.2.1) htup).trans e2
    have hpost : post = Label.ControlLabel (st.counter + 1) :=
      (congrArg (fun t : List Label × BlockMap × Label × Label × Nat =>
        t.2.2.2.1) htup).trans e3
    have hc1 : c1 = st.counter + 4 :=
      (congrArg (fun t : List Label × BlockMap × Label × Label × Nat =>
        t.2.2.2.2) htup).trans e4
    have hg1e : g1 = (join_exits M st.graph (find_exits M st.graph).2
        st.counter).2.1 :=
      congrArg (fun t : List Label × BlockMap × Label × Label × Nat =>
        t.2.1) htup
    subst hg1e
    have hg1wf : wfP (loop1.foldl dictPop
        (join_exits M st.graph (find_exits M st.graph).2 st.counter).2.1) :=
      foldl_dictPop_wf loop1 _ ewf
    refine ⟨wfP_dictSet _ _ _ hg1wf rfl, ?_, ?_, ?_⟩
    · -- freshness of the new graph below the returned counter
      intro i hi
      show i < sc.2
      rcases (mem_keys_dictSet _ _ _ _).mp hi with hi | hi
      · have hi1 := foldl_dictPop_keys loop1 _ _ hi
        rcases ekeys _ hi1 with hk | hk | hk
        · have := hfr i hk
          omega
        · rw [Label.ControlLabel.injEq] at hk
          omega
        · rw [Label.ControlLabel.injEq] at hk
          omega
      · have := hMc i (by rw [hi]; exact hlh_M)
        omega
    · simp only []
      omega
    · -- the header witness survives
      by_cases heM : e ∈ M
      · -- witness inside the processed loop: the fresh post-exit inherits it
        have hpe2 : h ∈ (find_exits M st.graph).2 :=
          (mem_find_exits_snd M st.graph h).mpr ⟨e, heM, het, hhM⟩
        have hpostM : post ∉ M := by
          intro hc
          rw [hpost] at hc
          have := hMc (st.counter + 1) hc
          omega
        have hpostL : post ∉ L := by
          intro hc
          rw [hpost] at hc
          have := hLc (st.counter + 1) hc
          omega
        have hplh : post ≠ loop_head := fun hc => hpostM (hc ▸ hlh_M)
        have hpl1 : post ∉ loop1 := by
          rw [hloop1, mem_setAdd]
          rintro (hc | hc)
          · exact hpostM hc
          · rw [hpost, Label.ControlLabel.injEq] at hc
            omega
        have hlk : dictLookup (dictSet (loop1.foldl dictPop
            (join_exits M st.graph (find_exits M st.graph).2
              st.counter).2.1) loop_head
            (.region loop_head rend false [post] [] .loop
              (.hmap ((loop1.filterMap (fun k => dictLookup
                (join_exits M st.graph (find_exits M st.graph).2
                  st.counter).2.1 k)).filterMap
                (fun node =>
                  if node.bbegin ∈ (find_headers_and_entries st.graph M).1
                  then some (node.bbegin, node) else none)))
              sc.1 (some pre))) post =
            some (.basic (Label.ControlLabel (st.counter + 1))
              (.ControlLabel (st.counter + 2)) false
              (find_exits M st.graph).2 []) := by
          rw [dictLookup_dictSet_ne _ _ _ _ hplh,
            foldl_dictPop_lookup loop1 _ post hpl1, hpost]
          exact epost (by rw [← hpost]; exact hpostM)
        refine ⟨post, mem_keys_of_lookup _ _ _ hlk, hpostL, ?_, hhL⟩
        rw [targetsOf, hlk]
        exact hpe2
      · -- witness outside the processed loop: untouched by the rewiring
        have hepre : e ≠ Label.ControlLabel st.counter := by
          intro hc
          rw [hc] at hek
          have := hfr st.counter hek
          omega
        have hepost : e ≠ Label.ControlLabel (st.counter + 1) := by
          intro hc
          rw [hc] at hek
          have := hfr (st.counter + 1) hek
          omega
        have helh : e ≠ loop_head := fun hc => heM (hc ▸ hlh_M)
        have hel1 : e ∉ loop1 := by
          rw [hloop1, mem_setAdd]
          rintro (hc | hc)
          · exact heM hc
          · exact hepre hc
        obtain ⟨b, hb⟩ := dictLookup_isSome_of_mem st.graph e hek
        have hlk : dictLookup (dictSet (loop1.foldl dictPop
            (join_exits M st.graph (find_exits M st.graph).2
              st.counter).2.1) loop_head
            (.region loop_head rend false [post] [] .loop
              (.hmap ((loop1.filterMap (fun k => dictLookup
                (join_exits M st.graph (find_exits M st.graph).2
                  st.counter).2.1 k)).filterMap
                (fun node =>
                  if node.bbegin ∈ (find_headers_and_entries st.graph M).1
                  then some (node.bbegin, node) else none)))
              sc.1 (some pre))) e = some b := by
          rw [dictLookup_dictSet_ne _ _ _ _ helh,
            foldl_dictPop_lookup loop1 _ e hel1,
            elook e heM hepre hepost]
          exact hb
        refine ⟨e, mem_keys_of_lookup _ _ _ hlk, heL, ?_, hhL⟩
        rw [targetsOf, hlk]
        rw [targetsOf, hb] at het
        exact het
  · -- exactly one pre-exit and one post-exit: the graph is reused as is
    subst loop1
    subst hg1e
    subst hc1
    have hg2wf : wfP (M.foldl dictPop st.graph) :=
      foldl_dictPop_wf M st.graph hwf
    refine ⟨wfP_dictSet _ _ _ hg2wf rfl, ?_, ?_, ?_⟩
    · intro i hi
      show i < sc.2
      rcases (mem_keys_dictSet _ _ _ _).mp hi with hi | hi
      · have hi1 := foldl_dictPop_keys M st.graph _ hi
        have := hfr i hi1
        omega
      · have := hMc i (by rw [hi]; exact hlh_M)
        omega
    · simp only []
      omega
    · by_cases heM : e ∈ M
      · -- witness inside the loop: the region node inherits the post-exit edge
        have hpe2 : h ∈ (find_exits M st.graph).2 :=
          (mem_find_exits_snd M st.graph h).mpr ⟨e, heM, het, hhM⟩
        have hhpost : h = post := by
          rw [hpost2] at hpe2
          exact List.mem_singleton.mp hpe2
        have hlk : dictLookup (dictSet (M.foldl dictPop st.graph) loop_head
            (.region loop_head rend false [post] [] .loop
              (.hmap ((M.filterMap (fun k => dictLookup st.graph k)).filterMap
                (fun node =>
                  if node.bbegin ∈ (find_headers_and_entries st.graph M).1
                  then some (node.bbegin, node) else none)))
              sc.1 (some pre))) loop_head =
            some (.region loop_head rend false [post] [] .loop
              (.hmap ((M.filterMap (fun k => dictLookup st.graph k)).filterMap
                (fun node =>
                  if node.bbegin ∈ (find_headers_and_entries st.graph M).1
                  then some (node.bbegin, node) else none)))
              sc.1 (some pre)) :=
          dictLookup_dictSet_self _ _ _
        refine ⟨loop_head, mem_keys_of_lookup _ _ _ hlk,
          hdisj loop_head hlh_M, ?_, hhL⟩
        rw [targetsOf, hlk, hhpost]
        exact List.mem_singleton.mpr rfl
      · have helh : e ≠ loop_head := fun hc => heM (hc ▸ hlh_M)
        obtain ⟨b, hb⟩ := dictLookup_isSome_of_mem st.graph e hek
        have hlk : dictLookup (dictSet (M.foldl dictPop st.graph) loop_head
            (.region loop_head rend false [post] [] .loop
              (.hmap ((M.filterMap (fun k => dictLookup st.graph k)).filterMap
                (fun node =>
                  if node.bbegin ∈ (find_headers_and_entries st.graph M).1
                  then some (node.bbegin, node) else none)))
              sc.1 (some pre))) e = some b := by
          rw [dictLookup_dictSet_ne _ _ _ _ helh,
            foldl_dictPop_lookup M st.graph e heM]
          exact hb
        refine ⟨e, mem_keys_of_lookup _ _ _ hlk, heL, ?_, hhL⟩
        rw [targetsOf, hlk]
        rw [targetsOf, hb] at het
        exact het

theorem process_loops_strict_err
    (rec : BlockMap → Nat → Except PyErr (BlockMap × Nat))
    (hrec : ∀ g c g2 c2, rec g c = .ok (g2, c2) → c ≤ c2)
    (L : List Label) (h1 h2 : Label) (hne : h1 ≠ h2) :
    ∀ (loops : List (List Label)) (st : LoopState),
      wfP st.graph → freshP st.graph st.counter →
      (∀ i, Label.ControlLabel i ∈ L → i < st.counter) →
      (∀ M ∈ loops, ∀ i, Label.ControlLabel i ∈ M → i < st.counter) →
      isHeaderOf st.graph L h1 → isHeaderOf st.graph L h2 →
      L ∈ loops →
      (∀ M ∈ loops, M = L ∨ ∀ x, x ∈ M → x ∉ L) →
      ∃ e, process_loops_strict rec loops st = .error e := by
  intro loops
  induction loops with
  | nil =>
    intro st _ _ _ _ _ _ hLin _
    cases hLin
  | cons M rest ih =>
    intro st hwf hfr hLc hMc hh1 hh2 hLin hcons
    by_cases hML : M = L
    · subst hML
      have hm1 : h1 ∈ (find_headers_and_entries st.graph M).1 :=
        (mem_fhe_headers st.graph M h1).mpr hh1
      have hm2 : h2 ∈ (find_headers_and_entries st.graph M).1 :=
        (mem_fhe_headers st.graph M h2).mpr hh2
      have hlen : 2 ≤ (find_headers_and_entries st.graph M).1.length :=
        length_of_two_distinct _ h1 h2 hne hm1 hm2
      obtain ⟨e, he⟩ := process_one_strict_err_of_two_headers rec st M hlen
      refine ⟨e, ?_⟩
      simp only [process_loops_strict]
      rw [he]
    · have hdisj : ∀ x, x ∈ M → x ∉ L :=
        (hcons M (List.mem_cons_self _ _)).resolve_left hML
      cases hres : process_one_loop_strict rec st M with
      | error e =>
        refine ⟨e, ?_⟩
        simp only [process_loops_strict]
        rw [hres]
      | ok st2 =>
        have hMc0 : ∀ i, Label.ControlLabel i ∈ M → i < st.counter :=
          hMc M (List.mem_cons_self _ _)
        obtain ⟨hwf2, hfr2, hmono, hh1p⟩ :=
          process_one_strict_preserve rec hrec st st2 M L h1 hdisj hwf hfr
            hLc hMc0 hh1 hres
        obtain ⟨_, _, _, hh2p⟩ :=
          process_one_strict_preserve rec hrec st st2 M L h2 hdisj hwf hfr
            hLc hMc0 hh2 hres
        have hLc2 : ∀ i, Label.ControlLabel i ∈ L → i < st2.counter :=
          fun i hi => Nat.lt_of_lt_of_le (hLc i hi) hmono
        have hMc2 : ∀ N ∈ rest, ∀ i, Label.ControlLabel i ∈ N →
            i < st2.counter :=
          fun N hN i hi =>
            Nat.lt_of_lt_of_le (hMc N (List.mem_cons_of_mem _ hN) i hi) hmono
        have hLin2 : L ∈ rest := by
          rcases List.mem_cons.mp hLin with hc | hc
          · exact absurd hc.symm hML
          · exact hc
        have hcons2 : ∀ N ∈ rest, N = L ∨ ∀ x, x ∈ N → x ∉ L :=
          fun N hN => hcons N (List.mem_cons_of_mem _ hN)
        obtain ⟨e, he⟩ := ih st2 hwf2 hfr2 hLc2 hMc2 hh1p hh2p hLin2 hcons2
        refine ⟨e, ?_⟩
        simp only [process_loops_strict]
        rw [hres]
        exact he

theorem pairwise_ne_disjoint (ll : List (List Label))
    (hp : List.Pairwise (fun s t => ∀ x, x ∈ s → x ∉ t) ll)
    (M N : List Label) (hM : M ∈ ll) (hN : N ∈ ll) (hMN : M ≠ N) :
    ∀ x, x ∈ M → x ∉ N := by
  have hsym : Symmetric (fun s t : List Label => ∀ x, x ∈ s → x ∉ t) := by
    intro s t hst x hxt hxs
    exact hst x hxs hxt
  exact hp.forall hsym hM hN hMN

def c5bMap : BlockMap := [
  (.BCLabel 0, .basic (.BCLabel 0) (.BCLabel 2) false [.BCLabel 4] []),
  (.BCLabel 2, .basic (.BCLabel 2) (.BCLabel 4) false [.BCLabel 6] []),
  (.BCLabel 4, .basic (.BCLabel 4) (.BCLabel 6) false [.BCLabel 6] []),
  (.BCLabel 6, .basic (.BCLabel 6) (.BCLabel 8) false
    [.BCLabel 4, .BCLabel 8] []),
  (.BCLabel 8, .basic (.BCLabel 8) (.BCLabel 10) false [] []) ]

/-- Claim C5 (amended): on a well-formed map whose synthetic labels are
below the counter, whenever some SCC of size at least 2 has more than one
header, and the run never hits the dead `unreachable?` branch (so the
implemented `restructure_loop` agrees with the strict variant that raises
there), `restructure_loop` fails — the single-header assertion (or an
earlier error) aborts it, and it produces no structured output.  Without
the agreement proviso the claim is false: `claim_C5_counterexample` shows
a stale-label run that silently succeeds on a multi-header loop. -/
theorem claim_C5_amended (g : BlockMap) (c : Nat) (fuel : Nat)
    (hwf : wfP g) (hfresh : freshP g c)
    (hmulti : multiHeaderSCCb g = true)
    (hagree : restructure_loop fuel g c = restructure_loop_strict fuel g c) :
    (restructure_loop fuel g c).toOption = none := by
  rw [hagree]
  cases fuel with
  | zero => rfl
  | succ f =>
    rw [restructure_loop_strict_succ]
    obtain ⟨L, hLmem, hLpred⟩ := List.any_eq_true.mp hmulti
    rw [Bool.and_eq_true, decide_eq_true_eq, decide_eq_true_eq] at hLpred
    obtain ⟨hLlen, hhdrs⟩ := hLpred
    obtain ⟨h1, h2, hne, hm1, hm2⟩ :=
      two_distinct_of_length (find_headers_and_entries g L).1
        (fhe_headers_nodup g L) hhdrs
    have hsub : ∀ s ∈ compute_scc g, ∀ x ∈ s, x ∈ dictKeys g := by
      intro s hs x hx
      obtain ⟨k, _, hseq⟩ := (compute_scc_spec g).1 s hs
      exact sccOf_sub_keys g k x (hseq ▸ hx)
    have hLin : L ∈ (compute_scc g).filter (fun s => s.length > 1) :=
      List.mem_filter.mpr ⟨hLmem, by simpa using hLlen⟩
    have hLc : ∀ i, Label.ControlLabel i ∈ L → i < c :=
      fun i hi => hfresh i (hsub L hLmem _ hi)
    have hMc : ∀ M ∈ (compute_scc g).filter (fun s => s.length > 1),
        ∀ i, Label.ControlLabel i ∈ M → i < c :=
      fun M hM i hi =>
        hfresh i (hsub M (List.mem_of_mem_filter hM) _ hi)
    have hpw : List.Pairwise (fun s t => ∀ x, x ∈ s → x ∉ t)
        ((compute_scc g).filter (fun s => s.length > 1)) :=
      List.Pairwise.sublist (List.filter_sublist _) (compute_scc_spec g).2
    have hcons : ∀ M ∈ (compute_scc g).filter (fun s => s.length > 1),
        M = L ∨ ∀ x, x ∈ M → x ∉ L := by
      intro M hM
      by_cases hML : M = L
      · exact Or.inl hML
      · exact Or.inr (pairwise_ne_disjoint _ hpw M L hM hLin hML)
    obtain ⟨e, he⟩ := process_loops_strict_err (restructure_loop_strict f)
      (restructure_loop_strict_mono f) L h1 h2 hne
      ((compute_scc g).filter (fun s => s.length > 1)) ⟨g, c, none⟩
      hwf hfresh hLc hMc
      ((mem_fhe_headers g L h1).mp hm1) ((mem_fhe_headers g L h2).mp hm2)
      hLin hcons
    rw [he]
    rfl

theorem claim_C5_witness :
    wfP c5bMap ∧ freshP c5bMap 0 ∧ multiHeaderSCCb c5bMap = true ∧
    (restructure_loop 2 c5bMap 0).toOption = none := by
  have hwf : wfP c5bMap := by
    intro p hp
    simp only [c5bMap, List.mem_cons, List.not_mem_nil, or_false] at hp
    rcases hp with rfl | rfl | rfl | rfl | rfl <;> rfl
  have hfresh : freshP c5bMap 0 := by
    intro i hi
    simp [c5bMap, dictKeys] at hi
  exact ⟨hwf, hfresh, by decide,
    claim_C5_amended c5bMap 0 2 hwf hfresh (by decide) rfl⟩
